import Mathlib

/-!
Formal model of the core water-quality engine of EPANET-MSX as shipped in
EPyT-Flow (sources under EPANET/EPANET-MSX/Src).  C doubles are modelled as
exact rationals; calls into libm (pow, sqrt, trigonometric functions) are
modelled as explicit function parameters, since their values are
implementation-defined in C.  All arrays follow the source's 1-based
convention: index 0 exists but is unused.
-/

namespace MSX

/-! ## Generic helpers -/

/-- Iterates f over the integer range lo..hi (inclusive), threading state,
matching a C loop of the shape for (i = lo; i <= hi; i++). -/
def rangeFold (lo hi : ℕ) (f : ℕ → α → α) (s : α) : α :=
  (List.range' lo (hi + 1 - lo)).foldl (fun a i => f i a) s

/-- Pointwise update of a 1-dimensional array modelled as a function. -/
def upd (v : ℕ → α) (i : ℕ) (x : α) : ℕ → α :=
  fun j => if j = i then x else v j

/-- Pointwise update of a matrix modelled as a curried function. -/
def updM (a : ℕ → ℕ → ℚ) (i j : ℕ) (x : ℚ) : ℕ → ℕ → ℚ :=
  fun i' j' => if i' = i ∧ j' = j then x else a i' j'

/-! ## Claim C10: node quality query (msxqual.c, MSXqual_getNodeQual) -/

/-- Species kinds from msxtypes.h: enum SpeciesType (BULK, WALL). -/
inductive SpeciesType where
  | BULK
  | WALL
deriving DecidableEq

/-- Node state: per-species concentration c, initial concentration c0 and the
index of an associated tank (0 if the node is a plain junction), after
msxtypes.h struct Snode. -/
structure Snode where
  c : ℕ → ℚ
  c0 : ℕ → ℚ
  tank : ℕ

/-- Tank state: cross-sectional area a (0 means reservoir) and per-species
concentration, after msxtypes.h struct Stank. -/
structure Stank where
  a : ℚ
  c : ℕ → ℚ

/-- The slice of the global MSX project state read by MSXqual_getNodeQual. -/
structure NodeQualState where
  speciesType : ℕ → SpeciesType
  node : ℕ → Snode
  tank : ℕ → Stank

/-- Translation of MSXqual_getNodeQual from msxqual.c: WALL species report 0,
tank nodes with positive area report the tank concentration, all other nodes
report the node concentration. -/
def MSXqual_getNodeQual (s : NodeQualState) (j m : ℕ) : ℚ :=
  if s.speciesType m = .WALL then 0
  else
    let k := (s.node j).tank
    if 0 < k ∧ 0 < (s.tank k).a then (s.tank k).c m
    else (s.node j).c m

/-! ## Claim C1: cyclic-term check (msxinp.c, checkCyclicTerms / traceTermPath)

TermArray i j = true models the incidence bitmap entry TermArray[i][j] = 1.0
set while parsing (msxinp.c line 877): Term i references Term j.  Row 0 of
TermArray holds the visited marks used by the depth-first search; here the
visited marks are modelled as a separate function, matching the code's use of
TermArray[0][...] which is reset before every trace. -/

/-- Translation of traceTermPath from msxinp.c: depth-first search through the
term-reference bitmap A looking for istar, with visited marks.  The extra
fuel argument bounds the recursion depth (the C recursion terminates because
every call marks a previously unvisited term). -/
def traceTermPath (A : ℕ → ℕ → Bool) (n : ℕ) :
    ℕ → (ℕ → Bool) → ℕ → ℕ → Bool × (ℕ → Bool)
  | 0, visited, _, _ => (false, visited)
  | fuel + 1, visited, i, istar =>
      if visited i then (false, visited)
      else
        let visited1 := upd visited i true
        rangeFold 1 n
          (fun j st =>
            if st.1 then st
            else if !(A i j) then st
            else if j = istar then (true, st.2)
            else traceTermPath A n fuel st.2 j istar)
          (false, visited1)

/-- Translation of checkCyclicTerms from msxinp.c: for i = 1; i < n; i++ the
visited marks are cleared and Term i is traced for a path back to itself;
the function returns 1 on the first cycle found and 0 otherwise.  Note the
loop bound i < n taken verbatim from the source. -/
def checkCyclicTerms (A : ℕ → ℕ → Bool) (n : ℕ) : ℕ :=
  (rangeFold 1 (n - 1)
    (fun i st =>
      if st.1 then st
      else
        let r := traceTermPath A n (n + 1) (fun _ => false) i i
        if r.1 then (true, r.2) else (false, r.2))
    (false, fun _ => false)).1.toNat

/-- Reference bitmap with two terms in which only the last term (Term 2)
references itself: a one-element cycle reachable only from the last term. -/
def lastTermSelfRef : ℕ → ℕ → Bool :=
  fun i j => i = 2 ∧ j = 2

/-! ## Claim C8: final mass-balance ratio (msxqual.c, MSXqual_step) -/

/-- Mass-balance accumulators of msxtypes.h struct SmassBalance, indexed by
species. -/
structure SmassBalance where
  initial : ℕ → ℚ
  inflow : ℕ → ℚ
  indisperse : ℕ → ℚ
  outflow : ℕ → ℚ
  final : ℕ → ℚ

/-- Per-species reacted-mass accumulators of the links and tanks
(MSX.Link[k].reacted[m] and MSX.Tank[k].reacted[m]). -/
structure ReactedState where
  linkReacted : List (ℕ → ℚ)
  tankReacted : List (ℕ → ℚ)

/-- Total reacted mass of species m summed over all links and tanks, as in
the finalization loop of MSXqual_step (msxqual.c lines 440-444). -/
def sreacted (r : ReactedState) (m : ℕ) : ℚ :=
  (r.linkReacted.map (fun f => f m)).sum + (r.tankReacted.map (fun f => f m)).sum

/-- Translation of the ratio computation at the end of MSXqual_step
(msxqual.c lines 445-457): a negative total reacted mass is added to the
outflow side, a non-negative one to the inflow side, and the ratio defaults
to 1 when the inflow side is zero. -/
def massBalanceRatio (b : SmassBalance) (r : ReactedState) (m : ℕ) : ℚ :=
  let sr := sreacted r m
  let smassin := b.initial m + b.inflow m + b.indisperse m
  let smassout := b.outflow m + b.final m
  let smassout1 := if sr < 0 then smassout - sr else smassout
  let smassin1 := if sr < 0 then smassin else smassin + sr
  if smassin1 = 0 then 1 else smassout1 / smassin1

/-! ## MathKit (msxutils.c): dense LU factorization, substitution, Jacobian -/

/-- Iterates f over the integer range lo..hi in decreasing order, matching a
C loop of the shape for (i = hi; i >= lo; i--). -/
def rangeFoldDown (lo hi : ℕ) (f : ℕ → α → α) (s : α) : α :=
  (List.range' lo (hi + 1 - lo)).reverse.foldl (fun a i => f i a) s

/-- Replacement value for an exactly-zero pivot (TINY1 in msxutils.c). -/
def TINY1 : ℚ := 1 / 10 ^ 20

/-- Output of factorize: success flag, the L/U overwrite of the input matrix,
the row-scaling work vector, the pivot permutation record, and (as proof
instrumentation) the list of pivot values actually used as divisors. -/
structure LUOut where
  ok : Bool
  a : ℕ → ℕ → ℚ
  w : ℕ → ℚ
  indx : ℕ → ℕ
  divisors : List ℚ

/-- Largest absolute value in row i of a[1..n][1..n], as computed by the
first loop of factorize. -/
def rowMax (a : ℕ → ℕ → ℚ) (n i : ℕ) : ℚ :=
  rangeFold 1 n (fun j big => if |a i j| > big then |a i j| else big) 0

/-- State threaded through the column loop of factorize. -/
structure FactorState where
  a : ℕ → ℕ → ℚ
  w : ℕ → ℚ
  indx : ℕ → ℕ
  divisors : List ℚ

/-- Body of the Crout column loop of factorize (msxutils.c lines 345-399) for
column j: reduce entries above the diagonal, search the scaled pivot,
interchange rows, replace an exactly-zero pivot by TINY1, and divide the
subdiagonal entries of the column by the pivot. -/
def factorizeColumn (n j : ℕ) (st : FactorState) : FactorState :=
  let a1 := rangeFold 1 (j - 1)
    (fun i a =>
      updM a i j (rangeFold 1 (i - 1) (fun k s => s - a i k * a k j) (a i j)))
    st.a
  let search := rangeFold j n
    (fun i (s : (ℕ → ℕ → ℚ) × ℚ × ℕ) =>
      let sum := rangeFold 1 (j - 1) (fun k t => t - s.1 i k * s.1 k j) (s.1 i j)
      let a2 := updM s.1 i j sum
      if st.w i * |sum| ≥ s.2.1 then (a2, st.w i * |sum|, i)
      else (a2, s.2.1, s.2.2))
    (a1, 0, j)
  let imax := search.2.2
  let a3 :=
    if j ≠ imax then
      rangeFold 1 n
        (fun k a =>
          let dum := a imax k
          updM (updM a imax k (a j k)) j k dum)
        search.1
    else search.1
  let w1 := if j ≠ imax then upd st.w imax (st.w j) else st.w
  let indx1 := upd st.indx j imax
  let a4 := if a3 j j = 0 then updM a3 j j TINY1 else a3
  if j ≠ n then
    let piv := a4 j j
    ⟨rangeFold (j + 1) n (fun i a => updM a i j (a i j * (1 / piv))) a4,
      w1, indx1, st.divisors ++ [piv]⟩
  else ⟨a4, w1, indx1, st.divisors⟩

/-- Translation of factorize from msxutils.c: LU decomposition with implicit
row scaling and partial pivoting of the 1-based matrix a[1..n][1..n].
Returns ok = false exactly when some row of the input has no nonzero entry
(the code's early return 0). -/
def factorize (a0 : ℕ → ℕ → ℚ) (n : ℕ) : LUOut :=
  let ok := rangeFold 1 n (fun i b => b && !(rowMax a0 n i = 0)) true
  if ok then
    let w0 : ℕ → ℚ := fun i => 1 / rowMax a0 n i
    let r := rangeFold 1 n (factorizeColumn n) (⟨a0, w0, fun _ => 0, []⟩ : FactorState)
    ⟨true, r.a, r.w, r.indx, r.divisors⟩
  else ⟨false, a0, fun _ => 0, fun _ => 0, []⟩

/-- Translation of solve from msxutils.c: forward substitution with the
permutation record and the ii optimization, then backward substitution. -/
def solve (a : ℕ → ℕ → ℚ) (n : ℕ) (indx : ℕ → ℕ) (b0 : ℕ → ℚ) : ℕ → ℚ :=
  let fwd := rangeFold 1 n
    (fun i (s : (ℕ → ℚ) × ℕ) =>
      let ip := indx i
      let sum := s.1 ip
      let b1 := upd s.1 ip (s.1 i)
      if s.2 ≠ 0 then
        (upd b1 i (rangeFold s.2 (i - 1) (fun j t => t - a i j * b1 j) sum), s.2)
      else if sum ≠ 0 then (upd b1 i sum, i)
      else (upd b1 i sum, s.2))
    (b0, 0)
  rangeFoldDown 1 n
    (fun i b =>
      upd b i (rangeFold (i + 1) n (fun j t => t - a i j * b j) (b i) / a i i))
    fwd.1

/-- Perturbation size used by the numerical Jacobian (eps in msxutils.c). -/
def jacEps : ℚ := 1 / 10 ^ 7

/-- Translation of jacobian from msxutils.c: column j is a centered
difference over 2 eps when x[j] is nonzero and a forward difference over
eps at x[j] = 0.  Returns the pair (f, a); as in the C code, the returned f
buffer holds the function values of the last perturbed evaluation, not the
values at x. -/
def jacobian (x : ℕ → ℚ) (n : ℕ)
    (func : ℚ → (ℕ → ℚ) → ℕ → (ℕ → ℚ)) : (ℕ → ℚ) × (ℕ → ℕ → ℚ) :=
  rangeFold 1 n
    (fun j (s : (ℕ → ℚ) × (ℕ → ℕ → ℚ)) =>
      let temp := x j
      let fv := func 0 (upd x j (temp + jacEps)) n
      let p := if temp = 0 then (x, jacEps) else (upd x j (temp - jacEps), 2 * jacEps)
      let wv := func 0 p.1 n
      (fv, rangeFold 1 n (fun i a => updM a i j ((fv i - wv i) / p.2)) s.2))
    (fun _ => 0, fun _ _ => 0)

/-! ## Claim C2: NewtonSolver (newton.c, newton_solve) -/

/-- One Newton iteration shared by the translated solver and the amended
specification: assemble and factorize the Jacobian at x (none when the
factorization reports a singular matrix), solve for the increment, apply it,
and return the new solution vector together with the increment vector. -/
def newtonStep (n : ℕ) (func : ℚ → (ℕ → ℚ) → ℕ → (ℕ → ℚ)) (x : ℕ → ℚ) :
    Option ((ℕ → ℚ) × (ℕ → ℚ)) :=
  let fj := jacobian x n func
  let lu := factorize fj.2 n
  if lu.ok then
    let d := solve lu.a n lu.indx (fun i => -(fj.1 i))
    some (rangeFold 1 n (fun i v => upd v i (v i + d i)) x, d)
  else none

/-- Convergence measure of the newton_solve update loop as written in the
source: the running maximum of fabs(F[i]/cscal) where cscal is the signed
pre-update component x[i] raised to relconvg when below it. -/
def newtonErrmax (n : ℕ) (relconvg : ℚ) (x d : ℕ → ℚ) : ℚ :=
  rangeFold 1 n
    (fun i e =>
      let cscal := if x i < relconvg then relconvg else x i
      if |d i / cscal| > e then |d i / cscal| else e)
    0

/-- Iteration loop of newton_solve, counting iterations from k. -/
def newtonLoop (n : ℕ) (relconvg : ℚ) (func : ℚ → (ℕ → ℚ) → ℕ → (ℕ → ℚ)) :
    ℕ → (ℕ → ℚ) → ℤ → ℤ
  | 0, _, _ => -2
  | it + 1, x, k =>
      match newtonStep n func x with
      | none => -1
      | some (x1, d) =>
          if newtonErrmax n relconvg x d ≤ relconvg then k
          else newtonLoop n relconvg func it x1 (k + 1)

/-- Translation of newton_solve from newton.c: -3 when n exceeds the opened
capacity nmax, otherwise damped Newton iteration with the source's
convergence test errmax <= 10^(-numsig). -/
def newton_solve (x : ℕ → ℚ) (n maxit : ℕ) (numsig : ℤ) (nmax : ℕ)
    (func : ℚ → (ℕ → ℚ) → ℕ → (ℕ → ℚ)) : ℤ :=
  if n > nmax then -3 else newtonLoop n ((10 : ℚ) ^ (-numsig)) func maxit x 1

/-- Specification function following claim C2 verbatim: identical to the
translated solver except that the convergence test takes the maximum over i
of the quantity |dx[i]| / max(|x[i]|, 10^(-numsig)) (absolute value of the
pre-update component) and requires it to be strictly below 10^(-numsig). -/
def newtonErrmaxClaim (n : ℕ) (relconvg : ℚ) (x d : ℕ → ℚ) : ℚ :=
  rangeFold 1 n (fun i e => max e (|d i| / max (|x i|) relconvg)) 0

/-- Iteration loop of the claim-C2 specification solver. -/
def newtonLoopClaim (n : ℕ) (relconvg : ℚ)
    (func : ℚ → (ℕ → ℚ) → ℕ → (ℕ → ℚ)) : ℕ → (ℕ → ℚ) → ℤ → ℤ
  | 0, _, _ => -2
  | it + 1, x, k =>
      match newtonStep n func x with
      | none => -1
      | some (x1, d) =>
          if newtonErrmaxClaim n relconvg x d < relconvg then k
          else newtonLoopClaim n relconvg func it x1 (k + 1)

/-- Claim C2's description of newton_solve, assembled verbatim. -/
def newton_solveClaim (x : ℕ → ℚ) (n maxit : ℕ) (numsig : ℤ) (nmax : ℕ)
    (func : ℚ → (ℕ → ℚ) → ℕ → (ℕ → ℚ)) : ℤ :=
  if n > nmax then -3 else newtonLoopClaim n ((10 : ℚ) ^ (-numsig)) func maxit x 1

/-- Amended-claim convergence measure: the maximum over i of
|dx[i]| / max(x[i], 10^(-numsig)), with the signed pre-update component in
the denominator. -/
def newtonErrmaxAmended (n : ℕ) (relconvg : ℚ) (x d : ℕ → ℚ) : ℚ :=
  rangeFold 1 n (fun i e => max e (|d i| / max (x i) relconvg)) 0

/-- Iteration loop of the amended specification solver: convergence when the
amended measure is at or below 10^(-numsig). -/
def newtonLoopAmended (n : ℕ) (relconvg : ℚ)
    (func : ℚ → (ℕ → ℚ) → ℕ → (ℕ → ℚ)) : ℕ → (ℕ → ℚ) → ℤ → ℤ
  | 0, _, _ => -2
  | it + 1, x, k =>
      match newtonStep n func x with
      | none => -1
      | some (x1, d) =>
          if newtonErrmaxAmended n relconvg x d ≤ relconvg then k
          else newtonLoopAmended n relconvg func it x1 (k + 1)

/-- Amended claim C2, assembled: -3 on capacity overflow, -1 on a singular
Jacobian, -2 when maxit iterations pass without convergence, else the first
iteration count at which the amended measure is at or below 10^(-numsig). -/
def newton_solveAmended (x : ℕ → ℚ) (n maxit : ℕ) (numsig : ℤ) (nmax : ℕ)
    (func : ℚ → (ℕ → ℚ) → ℕ → (ℕ → ℚ)) : ℤ :=
  if n > nmax then -3 else newtonLoopAmended n ((10 : ℚ) ^ (-numsig)) func maxit x 1

/-! ## Claim C4: postfix expression evaluator (mathexpr.c, mathexpr_eval)

The evaluator runs over the linked postfix node list with a fixed-size value
stack of 1024 doubles.  The stack is modelled as a total function on ℤ so
that the out-of-bounds accesses of the C code become observable: every read
or write records its index, and the minimum accessed index is carried in the
state.  C initializes only exprStack[0]; all other slots (including the
out-of-bounds ones, whose C contents are undefined) are modelled as 0.
Transcendental libm calls (opcodes 10-13 and 16-27) are modelled by the
oracle parameter fns, indexed by opcode; pow for opcode 31 by powf. -/

/-- Postfix IR node (struct ExprItem opcode / ivar / fvalue fields). -/
structure MathExprNode where
  opcode : ℕ
  ivar : ℕ
  fvalue : ℚ

/-- Evaluator state: value stack, stack index, and (instrumentation) the
least index ever read or written. -/
structure EvalState where
  stack : ℤ → ℚ
  idx : ℤ
  minAcc : ℤ

/-- Binary operator step shared by opcodes 3, 4, 5, 6: read the top, pop,
read the new top (with no bounds check, as in the source) and overwrite it. -/
def binOp (f : ℚ → ℚ → ℚ) (st : EvalState) : EvalState :=
  let r1 := st.stack st.idx
  let r2 := st.stack (st.idx - 1)
  ⟨fun j => if j = st.idx - 1 then f r2 r1 else st.stack j,
    st.idx - 1, min (min st.minAcc st.idx) (st.idx - 1)⟩

/-- Unary operator step: read the top of the stack and overwrite it. -/
def unOp (g : ℚ → ℚ) (st : EvalState) : EvalState :=
  ⟨fun j => if j = st.idx then g (st.stack st.idx) else st.stack j,
    st.idx, min st.minAcc st.idx⟩

/-- Push step for opcodes 7 and 8. -/
def pushOp (v : ℚ) (st : EvalState) : EvalState :=
  ⟨fun j => if j = st.idx + 1 then v else st.stack j,
    st.idx + 1, min st.minAcc (st.idx + 1)⟩

/-- One switch dispatch of mathexpr_eval.  Opcode 31 (exponentiation) is the
only binary case with an underflow guard (if stackindex < 0 break) and with
the source's base <= 0 cutoff; opcodes 14, 15 and 28 (abs, sgn, step) are
computed exactly; the remaining unary opcodes call the libm oracle. -/
def evalNode (fns : ℕ → ℚ → ℚ) (powf : ℚ → ℚ → ℚ) (getVar : ℕ → ℚ)
    (st : EvalState) (node : MathExprNode) : EvalState :=
  match node.opcode with
  | 3 => binOp (fun a b => a + b) st
  | 4 => binOp (fun a b => a - b) st
  | 5 => binOp (fun a b => a * b) st
  | 6 => binOp (fun a b => a / b) st
  | 7 => pushOp node.fvalue st
  | 8 => pushOp (getVar node.ivar) st
  | 9 => unOp (fun x => -x) st
  | 14 => unOp (fun x => |x|) st
  | 15 => unOp (fun x => if x < 0 then -1 else if x > 0 then 1 else 0) st
  | 28 => unOp (fun x => if x ≤ 0 then 0 else 1) st
  | 31 =>
      let r1 := st.stack st.idx
      let st1 : EvalState := ⟨st.stack, st.idx - 1, min st.minAcc st.idx⟩
      if st1.idx < 0 then st1
      else
        let r2 := st1.stack st1.idx
        ⟨fun j => if j = st1.idx then (if r2 ≤ 0 then 0 else powf r2 r1)
            else st1.stack j,
          st1.idx, min st1.minAcc st1.idx⟩
  | c => if 10 ≤ c ∧ c ≤ 27 then unOp (fns c) st else st

/-- Translation of mathexpr_eval from mathexpr.c: run the node list over the
stack (exprStack[0] initialized to 0, index starting at 0), then return the
top of the stack when the final index is non-negative and 0 otherwise.  The
returned state exposes the minimum index accessed during the run. -/
def mathexpr_eval (fns : ℕ → ℚ → ℚ) (powf : ℚ → ℚ → ℚ) (getVar : ℕ → ℚ)
    (expr : List MathExprNode) : ℚ × EvalState :=
  let st0 : EvalState := ⟨fun _ => 0, 0, 0⟩
  let st := expr.foldl (evalNode fns powf getVar) st0
  if 0 ≤ st.idx then
    (st.stack st.idx, ⟨st.stack, st.idx, min st.minAcc st.idx⟩)
  else (0, st)

/-! ## Claim C5: Dormand-Prince integrator (rk5.c, rk5_integrate)

All double constants are carried as exact rationals.  The libm calls
pow(err, expo1), pow(facold, beta) and sqrt are modelled by the oracle
parameters rpow and rsqrt of the parameter record.  The Ynew/K work buffers
are modelled as whole functions; the C code overwrites entries 1..n and the
callback func is applied to the resulting vector. -/

/-- Machine epsilon bound used by the zero-step-size check (UROUND). -/
def UROUND : ℚ := 23 / 10 ^ 17

/-- Inputs of rk5_integrate together with the solver-state fields set by
rk5_open (itmax, adjust) and the libm oracles. -/
structure RK5Params where
  n : ℕ
  t0 : ℚ
  tnext : ℚ
  htry : ℚ
  y0 : ℕ → ℚ
  atol : ℕ → ℚ
  rtol : ℕ → ℚ
  itmax : ℕ
  adjust : Bool
  func : ℚ → (ℕ → ℚ) → ℕ → (ℕ → ℚ)
  rpow : ℚ → ℚ → ℚ
  rsqrt : ℚ → ℚ

/-- Loop state of rk5_integrate.  The field hs is proof instrumentation: the
value of h at the start of every internal step, in order. -/
structure RK5State where
  y : ℕ → ℚ
  k1 : ℕ → ℚ
  t : ℚ
  h : ℚ
  facold : ℚ
  reject : Bool
  nfcn : ℤ
  htryOut : ℚ
  hs : List ℚ

/-- One loop body of rk5_integrate (rk5.c lines 199-281): interval clamp,
the seven Dormand-Prince stages, embedded error estimate, PI step-size
controller, and acceptance or rejection.  adj is the effective adjust flag
(forced to 1 by the code when the initial step size was 0). -/
def rk5_step (p : RK5Params) (adj : Bool) (hmax : ℚ) (st : RK5State) : RK5State :=
  let n := p.n
  let h := if st.t + (101 / 100) * st.h - p.tnext > 0 then p.tnext - st.t else st.h
  let y2 := fun i => st.y i + h * (1 / 5) * st.k1 i
  let k2 := p.func (st.t + (1 / 5) * h) y2 n
  let y3 := fun i => st.y i + h * ((3 / 40) * st.k1 i + (9 / 40) * k2 i)
  let k3 := p.func (st.t + (3 / 10) * h) y3 n
  let y4 := fun i =>
    st.y i + h * ((44 / 45) * st.k1 i - (56 / 15) * k2 i + (32 / 9) * k3 i)
  let k4 := p.func (st.t + (4 / 5) * h) y4 n
  let y5 := fun i =>
    st.y i + h * ((19372 / 6561) * st.k1 i - (25360 / 2187) * k2 i +
      (64448 / 6561) * k3 i - (212 / 729) * k4 i)
  let k5 := p.func (st.t + (8 / 9) * h) y5 n
  let y6 := fun i =>
    st.y i + h * ((9017 / 3168) * st.k1 i - (355 / 33) * k2 i +
      (46732 / 5247) * k3 i + (49 / 176) * k4 i - (5103 / 18656) * k5 i)
  let k6 := p.func (st.t + h) y6 n
  let y7 := fun i =>
    st.y i + h * ((35 / 384) * st.k1 i + (500 / 1113) * k3 i +
      (125 / 192) * k4 i - (2187 / 6784) * k5 i + (11 / 84) * k6 i)
  let k2b := p.func (st.t + h) y7 n
  let nfcn1 := st.nfcn + 6
  let trip :=
    if adj then
      let e := fun i =>
        ((71 / 57600) * st.k1 i - (71 / 16695) * k3 i + (71 / 1920) * k4 i -
          (17253 / 339200) * k5 i + (22 / 525) * k6 i - (1 / 40) * k2b i) * h
      let sumsq := rangeFold 1 n
        (fun i s =>
          let sk := p.atol i + p.rtol i * max (|st.y i|) (|y7 i|)
          s + (e i / sk) * (e i / sk)) 0
      let err := p.rsqrt (sumsq / n)
      let fac11 := p.rpow err (17 / 100)
      let fac := fac11 / p.rpow st.facold (1 / 25)
      let fac1 := max (1 / 10) (min 5 (fac / (9 / 10)))
      (err, fac11, h / fac1)
    else ((0 : ℚ), (1 : ℚ), h)
  let err := trip.1
  let fac11 := trip.2.1
  let hnew := trip.2.2
  let out : (ℕ → ℚ) × (ℕ → ℚ) × ℚ × ℚ × ℚ × Bool × ℚ :=
    if err ≤ 1 then
      let facold1 := max err (1 / 10 ^ 4)
      let t1 := st.t + h
      let htry1 := if adj ∧ t1 ≤ p.tnext then h else st.htryOut
      let hnew1 := if |hnew| > hmax then hmax else hnew
      let hnew2 := if st.reject then min (|hnew1|) (|h|) else hnew1
      let htry2 := if adj then hnew2 else htry1
      ⟨y7, k2b, t1, hnew2, facold1, false, htry2⟩
    else
      let hnew1 := if adj then h / min 5 (fac11 / (9 / 10)) else hnew
      let htry1 := if adj then hnew1 else st.htryOut
      ⟨st.y, st.k1, st.t, hnew1, st.facold, true, htry1⟩
  ⟨out.1, out.2.1, out.2.2.1, out.2.2.2.1, out.2.2.2.2.1, out.2.2.2.2.2.1,
    nfcn1, out.2.2.2.2.2.2, st.hs⟩

/-- Main loop of rk5_integrate.  Each iteration records h, returns -2 when
the zero-step check 0.1|h| <= |t| UROUND fires, runs the loop body and
returns -1 when the step counter reaches Itmax (the fuel argument is
Itmax - 2, the number of continuations before nstep >= Itmax).  On loop exit
the function-evaluation count is returned. -/
def rk5_loop (p : RK5Params) (adj : Bool) (hmax : ℚ) :
    ℕ → RK5State → ℤ × List ℚ
  | fuel, st =>
    if st.t < p.tnext then
      if (1 / 10) * |st.h| ≤ |st.t| * UROUND then (-2, st.hs ++ [st.h])
      else
        let st1 := rk5_step p adj hmax ⟨st.y, st.k1, st.t, st.h, st.facold,
          st.reject, st.nfcn, st.htryOut, st.hs ++ [st.h]⟩
        match fuel with
        | 0 => (-1, st1.hs)
        | f + 1 => rk5_loop p adj hmax f st1
    else (st.nfcn, st.hs)

/-- Initialization phase of rk5_integrate: initial function evaluation
(nfcn = 1), initial step-size selection when htry = 0, and the clamp
h = fmax(1e-8, h). -/
def rk5_init (p : RK5Params) : RK5State :=
  let k1 := p.func p.t0 p.y0 p.n
  let h1 :=
    if p.htry = 0 then
      rangeFold 1 p.n
        (fun i h =>
          let ytol := p.atol i + p.rtol i * |p.y0 i|
          if k1 i ≠ 0 then min h (ytol / |k1 i|) else h)
        (p.tnext - p.t0)
    else p.htry
  ⟨p.y0, k1, p.t0, max (1 / 10 ^ 8) h1, 1 / 10 ^ 4, false, 1, p.htry, []⟩

/-- Effective adjust flag: the source forces adjust = 1 when htry = 0. -/
def rk5_adj (p : RK5Params) : Bool :=
  if p.htry = 0 then true else p.adjust

/-- Translation of rk5_integrate from rk5.c, returning the result code
together with the recorded step sizes. -/
def rk5_run (p : RK5Params) : ℤ × List ℚ :=
  rk5_loop p (rk5_adj p) (p.tnext - p.t0) (p.itmax - 2) (rk5_init p)

/-- Return value of rk5_integrate. -/
def rk5_integrate (p : RK5Params) : ℤ := (rk5_run p).1

/-- Specification predicate following the amended claim C5: the run reaches,
at the start of an internal step and before the step-count limit, a state
with 0.1|h| <= |t| UROUND. -/
def rk5_urTriggered (p : RK5Params) (adj : Bool) (hmax : ℚ) :
    ℕ → RK5State → Bool
  | fuel, st =>
    if st.t < p.tnext then
      if (1 / 10) * |st.h| ≤ |st.t| * UROUND then true
      else
        match fuel with
        | 0 => false
        | f + 1 => rk5_urTriggered p adj hmax f
            (rk5_step p adj hmax ⟨st.y, st.k1, st.t, st.h, st.facold,
              st.reject, st.nfcn, st.htryOut, st.hs ++ [st.h]⟩)
    else false

/-- Specification predicate following the amended claim C5: the internal
step counter reaches the opened maximum before the interval is exhausted
and before the zero-step check fires. -/
def rk5_maxTriggered (p : RK5Params) (adj : Bool) (hmax : ℚ) :
    ℕ → RK5State → Bool
  | fuel, st =>
    if st.t < p.tnext then
      if (1 / 10) * |st.h| ≤ |st.t| * UROUND then false
      else
        match fuel with
        | 0 => true
        | f + 1 => rk5_maxTriggered p adj hmax f
            (rk5_step p adj hmax ⟨st.y, st.k1, st.t, st.h, st.facold,
              st.reject, st.nfcn, st.htryOut, st.hs ++ [st.h]⟩)
    else false

/-- Parameters of the C5 counterexample run: one equation with zero
right-hand side over the interval [10^10, 10^10 + 1] with htry = 10^-6 and
Itmax = 1000 as opened by the chemistry engine. -/
def rk5CounterParams : RK5Params :=
  ⟨1, 10 ^ 10, 10 ^ 10 + 1, 1 / 10 ^ 6, fun _ => 0, fun _ => 1, fun _ => 1,
    1000, true, fun _ _ _ => fun _ => 0, fun _ _ => 0, fun _ => 0⟩

/-- Concrete 2x2 matrix whose column-1 pivot candidates are all of magnitude
10^-30: both rows pass the zero-row check, yet the selected pivot is tiny
and nonzero. -/
def tinyMat : ℕ → ℕ → ℚ := fun i j =>
  if i = 1 ∧ j = 1 then 1 / 10 ^ 30
  else if i = 1 ∧ j = 2 then 1
  else if i = 2 ∧ j = 1 then 1 / 10 ^ 30
  else if i = 2 ∧ j = 2 then 2
  else 0

/-! ## Claim C9: segment-list reversal (msxqual.c, MSXqual_reversesegs)

Segments are modelled as arena entries indexed by natural numbers; the heap
maps each index to its prev/next pointers (null modelled as none).  A link's
list runs from FirstSeg (downstream end) along the prev pointers to LastSeg
(upstream end), as built by MSXqual_addSeg. -/

/-- Pointer pair of a segment (the prev/next fields of struct Sseg). -/
structure SegPtrs where
  prev : Option ℕ
  next : Option ℕ
deriving DecidableEq

/-- Pointer state of one link: the segment heap and the FirstSeg/LastSeg
head and tail pointers. -/
structure LinkSegs where
  heap : ℕ → SegPtrs
  first : Option ℕ
  last : Option ℕ

/-- Loop of MSXqual_reversesegs: walk the prev chain from the old first
segment; at each segment save cseg = seg->prev, then set seg->prev = pseg
and seg->next = cseg, and advance.  Fuel bounds the walk (the C loop
terminates because a well-formed chain is finite). -/
def revLoop : ℕ → (ℕ → SegPtrs) → Option ℕ → Option ℕ → (ℕ → SegPtrs)
  | 0, heap, _, _ => heap
  | fuel + 1, heap, pseg, seg =>
      match seg with
      | none => heap
      | some s =>
          let cseg := (heap s).prev
          revLoop fuel (upd heap s ⟨pseg, cseg⟩) (some s) cseg

/-- Translation of MSXqual_reversesegs from msxqual.c: swap FirstSeg and
LastSeg and rewrite every chain segment's pointers in place. -/
def MSXqual_reversesegs (fuel : ℕ) (L : LinkSegs) : LinkSegs :=
  ⟨revLoop fuel L.heap none L.first, L.last, L.first⟩

/-- The list segs enumerates a doubly linked chain in the heap, starting at
its downstream end: each element's next pointer names the previous element
(b for the head) and each element's prev pointer names the following element
(none for the last). -/
def isChain (heap : ℕ → SegPtrs) : Option ℕ → List ℕ → Prop
  | _, [] => True
  | b, x :: xs =>
      (heap x).next = b ∧ (heap x).prev = xs.head? ∧ isChain heap (some x) xs

/-- The prev pointers alone follow the list segs (all the reversal loop
reads). -/
def prevChain (heap : ℕ → SegPtrs) : List ℕ → Prop
  | [] => True
  | x :: xs => (heap x).prev = xs.head? ∧ prevChain heap xs

/-- Element preceding x in the list (p for the head position); used to
describe the pointers written by the reversal loop. -/
def prevIn (p : Option ℕ) : List ℕ → ℕ → Option ℕ
  | [], _ => p
  | y :: ys, x => if x = y then p else prevIn (some y) ys x

/-- Well-formedness of a link's segment list: segs is duplicate-free,
FirstSeg and LastSeg point at its two ends, and the pointers form the
chain. -/
def wellFormed (L : LinkSegs) (segs : List ℕ) : Prop :=
  segs.Nodup ∧ L.first = segs.head? ∧ L.last = segs.getLast? ∧
    isChain L.heap none segs

/-- Concrete three-segment chain used as witness instance. -/
def chain3 : LinkSegs :=
  ⟨fun s =>
      if s = 1 then ⟨some 2, none⟩
      else if s = 2 then ⟨some 3, some 1⟩
      else if s = 3 then ⟨none, some 2⟩
      else ⟨none, none⟩,
    some 1, some 3⟩

/-! ## Claim C6: per-link segment budget (msxqual.c / msxinp.c / msxproj.c)

The transition system below models one link's segment list together with
its nsegs counter through the operations that touch it: per-link segment
initialization (initSegs), release of a new upstream segment
(evalnodeoutflow), consumption at the downstream node (evalnodeinflow),
removeAllSegs and MSXqual_reversesegs.  advectSegs does not modify the list
(it only prepares the NewSeg buffer, modelled here as the newSegC argument
of the outflow operation).  The list runs head = FirstSeg (downstream) to
last = LastSeg (upstream); MSXqual_addSeg appends at the upstream end. -/

/-- Compile-time segment budget default (dispersion.h MAXSEGMENTS). -/
def MAXSEGMENTS : ℕ := 5000

/-- Default assignment MSX.MaxSegments = MAXSEGMENTS (msxproj.c line 528). -/
def defaultMaxSegments : ℕ := MAXSEGMENTS

/-- Translation of the MAXSEGMENT_OPTION case of parseOption (msxinp.c lines
721-725): a non-positive count is an input error, any other value is clamped
from below to 50. -/
def parseSegmentsOption (k : ℤ) : Except Unit ℤ :=
  if k ≤ 0 then Except.error () else Except.ok (max k 50)

/-- One water-quality segment of a link (volume and concentrations). -/
structure Seg6 where
  v : ℚ
  c : ℕ → ℚ

/-- Per-link transport state: segment list and the nsegs counter. -/
structure LinkState where
  segs : List Seg6
  nsegs : ℕ

/-- Static configuration read by the segment operations. -/
structure QualConfig where
  nspecies : ℕ
  maxSegments : ℕ
  speciesType : ℕ → SpeciesType
  atol : ℕ → ℚ

/-- Translation of MSXqual_isSame (msxqual.c lines 577-597): two
concentration vectors agree when every species difference is strictly below
its absolute tolerance. -/
def MSXqual_isSame (cfg : QualConfig) (c1 c2 : ℕ → ℚ) : Bool :=
  rangeFold 1 cfg.nspecies (fun m b => b && (|c1 m - c2 m| < cfg.atol m)) true

/-- Per-link part of initSegs (msxqual.c lines 748-777): the list is reset
and, when the link volume is positive, MIN(100, MaxSegments) equal segments
are added through MSXqual_addSeg (which increments nsegs each time; initSegs
itself does not reset nsegs). -/
def initSegsLink (cfg : QualConfig) (c : ℕ → ℚ) (v : ℚ) (s : LinkState) :
    LinkState :=
  if v > 0 then
    let ninitsegs := min 100 cfg.maxSegments
    ⟨List.replicate ninitsegs ⟨v / ninitsegs, c⟩, s.nsegs + ninitsegs⟩
  else ⟨[], s.nsegs⟩

/-- Translation of evalnodeoutflow (msxqual.c lines 1336-1408): release the
volume |Q| tstep carrying the upstream node's quality.  A fresh upstream
segment (prepared by advectSegs as NewSeg, with concentrations newSegC and
BULK entries overwritten with the node quality) is appended only when the
last segment's quality differs from the node's and nsegs < MaxSegments;
otherwise the released volume is merged into the existing last segment by a
volume-weighted average of the BULK species. -/
def evalnodeoutflow (cfg : QualConfig) (newSegC : ℕ → ℚ) (q tstep : ℚ)
    (upnode : ℕ → ℚ) (s : LinkState) : LinkState :=
  let v := |q| * tstep
  if v = 0 then s
  else
    let cNew := fun m =>
      if cfg.speciesType m = .BULK then upnode m else newSegC m
    match s.segs.getLast? with
    | some lastSeg =>
        if ¬(MSXqual_isSame cfg lastSeg.c upnode) ∧ s.nsegs < cfg.maxSegments
        then ⟨s.segs ++ [⟨v, cNew⟩], s.nsegs + 1⟩
        else
          ⟨s.segs.dropLast ++
              [⟨lastSeg.v + v, fun m =>
                if cfg.speciesType m = .BULK then
                  (lastSeg.c m * lastSeg.v + upnode m * v) / (lastSeg.v + v)
                else lastSeg.c m⟩],
            s.nsegs⟩
    | none => ⟨s.segs ++ [⟨v, cNew⟩], s.nsegs + 1⟩

/-- Consumption loop of evalnodeinflow (msxqual.c lines 1425-1480): while
flow volume remains, drain the leading (downstream) segment; a fully
consumed segment is unlinked (nsegs--) and recycled, a partially consumed
one keeps its tail volume. -/
def inflowLoop : List Seg6 → ℚ → ℕ → List Seg6 × ℕ
  | [], _, ns => ([], ns)
  | seg :: rest, v, ns =>
      if v > 0 then
        let vseg := min seg.v v
        if seg.v ≤ vseg then inflowLoop rest (v - vseg) (ns - 1)
        else (⟨seg.v - vseg, seg.c⟩ :: rest, ns)
      else (seg :: rest, ns)

/-- Translation of evalnodeinflow's effect on the link state. -/
def evalnodeinflow (q tstep : ℚ) (s : LinkState) : LinkState :=
  let r := inflowLoop s.segs (|q| * tstep) s.nsegs
  ⟨r.1, r.2⟩

/-- States of one link reachable by the transport operations from the
post-open state (MSX.Link is calloc-allocated, so nsegs starts at 0 and the
list is empty). -/
inductive QualReach (cfg : QualConfig) : LinkState → Prop
  | opened : QualReach cfg ⟨[], 0⟩
  | initSegs (c : ℕ → ℚ) (v : ℚ) (s : LinkState) :
      QualReach cfg s → QualReach cfg (initSegsLink cfg c v s)
  | outflow (newSegC : ℕ → ℚ) (q tstep : ℚ) (upnode : ℕ → ℚ) (s : LinkState) :
      QualReach cfg s → QualReach cfg (evalnodeoutflow cfg newSegC q tstep upnode s)
  | inflow (q tstep : ℚ) (s : LinkState) :
      QualReach cfg s → QualReach cfg (evalnodeinflow q tstep s)
  | removeAll (s : LinkState) : QualReach cfg s → QualReach cfg ⟨[], 0⟩
  | reverse (s : LinkState) :
      QualReach cfg s → QualReach cfg ⟨s.segs.reverse, s.nsegs⟩

/-- Concrete configuration with the minimum budget, used as witness. -/
def cfg50 : QualConfig := ⟨1, 50, fun _ => SpeciesType.BULK, fun _ => 1⟩

/-! ## Claim C7: topological node sort (msxqual.c, sortNodes /
selectnonstacknode)

Flow directions follow the FlowDirection enum (-1 negative, 0 zero,
1 positive); zero-flow links are skipped everywhere.  The node stack is a
list with its head as the top; SortedNodes[1..numsorted] is the sorted
list in order. -/

/-- Network slice read by sortNodes: node and link counts, the endpoint
maps, per-link flow direction and the adjacency lists (node, link) built by
buildadjlists. -/
structure SortNet where
  nNodes : ℕ
  nLinks : ℕ
  n1 : ℕ → ℕ
  n2 : ℕ → ℕ
  flowDir : ℕ → ℤ
  adj : ℕ → List (ℕ × ℕ)

/-- Loop state of sortNodes. -/
structure SortState where
  indegree : ℕ → ℕ
  stack : List ℕ
  sorted : List ℕ

/-- In-degree count of sortNodes (msxqual.c lines 1599-1607): each link with
non-negligible flow contributes one to its downstream node. -/
def initIndegree (net : SortNet) : ℕ → ℕ :=
  rangeFold 1 net.nLinks
    (fun k ind =>
      if net.flowDir k = 1 then upd ind (net.n2 k) (ind (net.n2 k) + 1)
      else if net.flowDir k = -1 then upd ind (net.n1 k) (ind (net.n1 k) + 1)
      else ind)
    (fun _ => 0)

/-- Initial stack of sortNodes (msxqual.c lines 1609-1616): the nodes with
no inflow, pushed in increasing index order. -/
def initStack (net : SortNet) (ind : ℕ → ℕ) : List ℕ :=
  rangeFold 1 net.nNodes (fun i st => if ind i = 0 then i :: st else st) []

/-- In-degree reduction loop over the adjacency list of the node i just
sorted (msxqual.c lines 1637-1662): for each incident link with flow out of
i, decrement the downstream node's in-degree and push it when the in-degree
reaches zero. -/
def processAdj (net : SortNet) (i : ℕ) :
    List (ℕ × ℕ) → (ℕ → ℕ) → List ℕ → (ℕ → ℕ) × List ℕ
  | [], ind, stk => (ind, stk)
  | al :: rest, ind, stk =>
      let k := al.2
      if net.flowDir k = 0 then processAdj net i rest ind stk
      else
        let n := if net.flowDir k < 0 then net.n1 k else net.n2 k
        if n ≠ i ∧ 0 < ind n then
          let ind1 := upd ind n (ind n - 1)
          if ind1 n = 0 then processAdj net i rest ind1 (n :: stk)
          else processAdj net i rest ind1 stk
        else processAdj net i rest ind stk

/-- First loop of selectnonstacknode (msxqual.c lines 1688-1701): scan the
sorted nodes in last-in-first-out order and return the first adjacent node
that still has inflow links. -/
def selectFromSorted (net : SortNet) (ind : ℕ → ℕ) : List ℕ → Option ℕ
  | [] => none
  | m :: rest =>
      match (net.adj m).find? (fun al => 0 < ind al.1) with
      | some al => some al.1
      | none => selectFromSorted net ind rest

/-- Translation of selectnonstacknode (msxqual.c lines 1675-1713): try the
neighbors of sorted nodes, then the first node with remaining inflow, else
0. -/
def selectnonstacknode (net : SortNet) (ind : ℕ → ℕ) (sorted : List ℕ) : ℕ :=
  match selectFromSorted net ind sorted.reverse with
  | some n => n
  | none =>
      match (List.range' 1 net.nNodes).find? (fun i => 0 < ind i) with
      | some i => i
      | none => 0

/-- Main loop of sortNodes (msxqual.c lines 1618-1663).  Each iteration
either pops the top of the stack into the sorted order and reduces its
downstream in-degrees, or, when the stack is empty (a cycle), frees a node
chosen by selectnonstacknode by zeroing its in-degree, pushes it and
processes it; the returned flag records the break on a failed selection
(the code's "This shouldn't happen" branch).  Fuel bounds the iterations;
sortNodes supplies nNodes, and every iteration sorts exactly one node. -/
def sortLoop (net : SortNet) : ℕ → SortState → SortState × Bool
  | 0, s => (s, false)
  | fuel + 1, s =>
      if s.sorted.length < net.nNodes then
        match s.stack with
        | i :: rest =>
            let pr := processAdj net i (net.adj i) s.indegree rest
            sortLoop net fuel ⟨pr.1, pr.2, s.sorted ++ [i]⟩
        | [] =>
            let j := selectnonstacknode net s.indegree s.sorted
            if j = 0 then (s, true)
            else
              let pr := processAdj net j (net.adj j) (upd s.indegree j 0) []
              sortLoop net fuel ⟨pr.1, pr.2, s.sorted ++ [j]⟩
      else (s, false)

/-- Translation of sortNodes: build the in-degrees and the initial stack,
run the loop, and report error 120 when the sort is incomplete. -/
def sortNodes (net : SortNet) : SortState × ℕ :=
  let ind := initIndegree net
  let r := sortLoop net net.nNodes ⟨ind, initStack net ind, []⟩
  (r.1, if r.1.sorted.length < net.nNodes then 120 else 0)

/-- Three-node directed cycle with equal positive flows (the spec's
topological-sort fallback scenario): links 1: 1 to 2, 2: 2 to 3,
3: 3 to 1. -/
def cycle3 : SortNet :=
  ⟨3, 3,
    fun k => if k = 2 then 2 else if k = 3 then 3 else 1,
    fun k => if k = 2 then 3 else if k = 3 then 1 else 2,
    fun _ => 1,
    fun i =>
      if i = 1 then [(2, 1), (3, 3)]
      else if i = 2 then [(1, 1), (3, 2)]
      else if i = 3 then [(2, 2), (1, 3)]
      else []⟩

/-- Invariant of the sortNodes loop: the stack and the sorted output are
jointly duplicate-free and within node range, and a node is on the stack or
already sorted exactly when its in-degree has reached zero. -/
def SortInv (N : ℕ) (s : SortState) : Prop :=
  (s.stack ++ s.sorted).Nodup ∧
  (∀ n ∈ s.stack ++ s.sorted, 1 ≤ n ∧ n ≤ N) ∧
  (∀ n, 1 ≤ n → n ≤ N → ((n ∈ s.stack ∨ n ∈ s.sorted) ↔ s.indegree n = 0))

end MSX

/-! # Theorems -/

namespace MSX

/-- C10: for every node index j and every species m of kind WALL, the public
node-quality query returns exactly 0, regardless of node concentrations,
tank association or tank state. -/
theorem getNodeQual_wall_zero (s : NodeQualState) (j m : ℕ)
    (h : s.speciesType m = .WALL) : MSXqual_getNodeQual s j m = 0 := by
  unfold MSXqual_getNodeQual
  rw [if_pos h]

/-- Witness for C10: a concrete state with a WALL species, a tank of positive
area and nonzero stored concentrations still reports node quality 0. -/
theorem getNodeQual_wall_zero_witness :
    (NodeQualState.speciesType
        ⟨fun _ => .WALL, fun _ => ⟨fun _ => 5, fun _ => 7, 1⟩,
          fun _ => ⟨2, fun _ => 9⟩⟩ 1 = SpeciesType.WALL) ∧
      MSXqual_getNodeQual
        ⟨fun _ => .WALL, fun _ => ⟨fun _ => 5, fun _ => 7, 1⟩,
          fun _ => ⟨2, fun _ => 9⟩⟩ 1 1 = 0 :=
  ⟨rfl, getNodeQual_wall_zero _ 1 1 rfl⟩

/-- Generic invariant preservation for rangeFold. -/
theorem rangeFold_inv {α : Type*} (P : α → Prop) (lo hi : ℕ) (f : ℕ → α → α)
    (hf : ∀ i s, P s → P (f i s)) (s : α) (hs : P s) :
    P (rangeFold lo hi f s) := by
  unfold rangeFold
  generalize List.range' lo (hi + 1 - lo) = l
  induction l generalizing s with
  | nil => exact hs
  | cons x xs ih => exact ih _ (hf x s hs)

/-- Generic congruence for rangeFold. -/
theorem rangeFold_congr {α : Type*} (lo hi : ℕ) (f g : ℕ → α → α)
    (h : ∀ i s, f i s = g i s) (s : α) :
    rangeFold lo hi f s = rangeFold lo hi g s := by
  unfold rangeFold
  generalize List.range' lo (hi + 1 - lo) = l
  induction l generalizing s with
  | nil => rfl
  | cons x xs ih => simp only [List.foldl_cons, h, ih]

/-- Reading back the entry just written into a matrix. -/
theorem updM_self (a : ℕ → ℕ → ℚ) (i j : ℕ) (x : ℚ) : updM a i j x i j = x := by
  simp [updM]

/-- C3 (counterexample to the claim as stated): the matrix tinyMat passes
the zero-row singularity check (factorize succeeds), yet the value 10^-30,
whose magnitude is strictly below the 10^-20 threshold, is used as a
divisor without being replaced: the source replaces a pivot only when it is
exactly zero, not when its magnitude is below 10^-20. -/
theorem factorize_divides_by_subthreshold_pivot :
    (factorize tinyMat 2).ok = true ∧
      ((1 : ℚ) / 10 ^ 30) ∈ (factorize tinyMat 2).divisors ∧
      |(1 : ℚ) / 10 ^ 30| < 1 / 10 ^ 20 := by
  refine ⟨?_, ?_, by rw [abs_of_pos] <;> norm_num⟩ <;>
    norm_num [factorize, factorizeColumn, rowMax, rangeFold, tinyMat, upd, updM,
      List.range', abs_of_pos, TINY1]

/-- Zero pivots are replaced by TINY1 before any use, so the value read back
from the diagonal after the replacement step is never zero. -/
theorem pivotFix_nonzero (a3 : ℕ → ℕ → ℚ) (j : ℕ) :
    (if a3 j j = 0 then updM a3 j j TINY1 else a3) j j ≠ 0 := by
  by_cases hz : a3 j j = 0
  · rw [if_pos hz, updM_self]; norm_num [TINY1]
  · rw [if_neg hz]; exact hz

/-- One column step of factorize never records a zero divisor. -/
theorem factorizeColumn_divisors_nonzero (n j : ℕ) (st : FactorState)
    (hst : (0 : ℚ) ∉ st.divisors) :
    (0 : ℚ) ∉ (factorizeColumn n j st).divisors := by
  unfold factorizeColumn
  by_cases hjn : j = n
  · simp only [hjn, ne_eq, not_true_eq_false, if_false, ite_false]
    exact hst
  · simp only [ne_eq, hjn, not_false_eq_true, if_true, ite_true, List.mem_append,
      List.mem_singleton]
    push_neg
    exact ⟨hst, fun hc => pivotFix_nonzero _ j hc.symm⟩

/-- C3 (amended): in factorize, only a pivot that is exactly zero is
replaced (by 10^-20) before being used as a divisor, so no division by an
exactly-zero pivot ever occurs for any input matrix: every recorded divisor
is nonzero. -/
theorem factorize_divisors_nonzero (a0 : ℕ → ℕ → ℚ) (n : ℕ) :
    (0 : ℚ) ∉ (factorize a0 n).divisors := by
  unfold factorize
  dsimp only
  split
  · exact rangeFold_inv (fun st : FactorState => (0 : ℚ) ∉ st.divisors) 1 n
      (factorizeColumn n) (fun i s hs => factorizeColumn_divisors_nonzero n i s hs)
      _ (by simp)
  · simp

/-- C2 (counterexample): on the one-dimensional problem f(x) = x - 1 - 10^-7
started at x = 0 with maxit = 1 and numsig = 0 the translated newton_solve
converges at iteration 1 (the source test is errmax <= 10^-numsig) while
the claim's strict test reports failure -2; and on f(x) = x + 8 started at
x = -10 the source (whose scaling uses the signed component x[i], not its
absolute value) reports failure -2 while the claim's formula with
max(|x[i]|, 10^-numsig) converges at iteration 1. -/
theorem newton_solve_claim_false :
    newton_solve (fun _ => 0) 1 1 0 1 (fun _ x _ => fun i => x i - 1 - 1 / 10 ^ 7) = 1 ∧
      newton_solveClaim (fun _ => 0) 1 1 0 1 (fun _ x _ => fun i => x i - 1 - 1 / 10 ^ 7) = -2 ∧
      newton_solve (fun _ => -10) 1 1 0 1 (fun _ x _ => fun i => x i + 8) = -2 ∧
      newton_solveClaim (fun _ => -10) 1 1 0 1 (fun _ x _ => fun i => x i + 8) = 1 := by
  refine ⟨?_, ?_, ?_, ?_⟩ <;>
    norm_num [newton_solve, newton_solveClaim, newtonLoop, newtonLoopClaim,
      newtonStep, newtonErrmax, newtonErrmaxClaim, jacobian, jacEps, factorize,
      factorizeColumn, rowMax, solve, rangeFold, rangeFoldDown, upd, updM,
      List.range', abs_of_pos, abs_of_nonpos, TINY1]

/-- C4 (code bug): a postfix IR consisting of the single binary operator +
(opcode 3) makes mathexpr_eval read and write the stack at index -1, below
the bottom of the fixed-size stack: the binary operators +, -, *, / have no
underflow guard (only opcode 31 checks stackindex < 0).  The final result of
the underflowing evaluation is 0, as the claim's second part states. -/
theorem mathexpr_eval_reads_below_zero :
    (mathexpr_eval (fun _ _ => 0) (fun _ _ => 0) (fun _ => 0)
        [⟨3, 0, 0⟩]).2.minAcc = -1 ∧
      (mathexpr_eval (fun _ _ => 0) (fun _ _ => 0) (fun _ => 0)
        [⟨3, 0, 0⟩]).1 = 0 := by
  constructor <;>
    simp only [mathexpr_eval, evalNode, binOp, List.foldl] <;> norm_num

/-- Function-evaluation count advances by exactly 6 in every loop body. -/
theorem rk5_step_nfcn (p : RK5Params) (adj : Bool) (hmax : ℚ) (s : RK5State) :
    (rk5_step p adj hmax s).nfcn = s.nfcn + 6 := rfl

/-- Loop-level characterization of the -2 return of rk5_integrate. -/
theorem rk5_loop_minus2_iff (p : RK5Params) (adj : Bool) (hmax : ℚ) :
    ∀ (fuel : ℕ) (st : RK5State), 0 ≤ st.nfcn →
      ((rk5_loop p adj hmax fuel st).1 = -2 ↔
        rk5_urTriggered p adj hmax fuel st = true) := by
  intro fuel
  induction fuel with
  | zero =>
      intro st h
      rw [rk5_loop, rk5_urTriggered]
      by_cases h1 : st.t < p.tnext
      · rw [if_pos h1, if_pos h1]
        by_cases h2 : (1 / 10) * |st.h| ≤ |st.t| * UROUND
        · rw [if_pos h2, if_pos h2]; simp
        · rw [if_neg h2, if_neg h2]; simp
      · rw [if_neg h1, if_neg h1]
        simp only [Bool.false_eq_true, iff_false]
        intro hc
        have hc2 : st.nfcn = -2 := hc
        omega
  | succ f ih =>
      intro st h
      rw [rk5_loop, rk5_urTriggered]
      by_cases h1 : st.t < p.tnext
      · rw [if_pos h1, if_pos h1]
        by_cases h2 : (1 / 10) * |st.h| ≤ |st.t| * UROUND
        · rw [if_pos h2, if_pos h2]; simp
        · rw [if_neg h2, if_neg h2]
          exact ih _ (by rw [rk5_step_nfcn]; change 0 ≤ st.nfcn + 6; omega)
      · rw [if_neg h1, if_neg h1]
        simp only [Bool.false_eq_true, iff_false]
        intro hc
        have hc2 : st.nfcn = -2 := hc
        omega

/-- Loop-level characterization of the -1 return of rk5_integrate. -/
theorem rk5_loop_minus1_iff (p : RK5Params) (adj : Bool) (hmax : ℚ) :
    ∀ (fuel : ℕ) (st : RK5State), 0 ≤ st.nfcn →
      ((rk5_loop p adj hmax fuel st).1 = -1 ↔
        rk5_maxTriggered p adj hmax fuel st = true) := by
  intro fuel
  induction fuel with
  | zero =>
      intro st h
      rw [rk5_loop, rk5_maxTriggered]
      by_cases h1 : st.t < p.tnext
      · rw [if_pos h1, if_pos h1]
        by_cases h2 : (1 / 10) * |st.h| ≤ |st.t| * UROUND
        · rw [if_pos h2, if_pos h2]; simp
        · rw [if_neg h2, if_neg h2]; simp
      · rw [if_neg h1, if_neg h1]
        simp only [Bool.false_eq_true, iff_false]
        intro hc
        have hc2 : st.nfcn = -1 := hc
        omega
  | succ f ih =>
      intro st h
      rw [rk5_loop, rk5_maxTriggered]
      by_cases h1 : st.t < p.tnext
      · rw [if_pos h1, if_pos h1]
        by_cases h2 : (1 / 10) * |st.h| ≤ |st.t| * UROUND
        · rw [if_pos h2, if_pos h2]; simp
        · rw [if_neg h2, if_neg h2]
          exact ih _ (by rw [rk5_step_nfcn]; change 0 ≤ st.nfcn + 6; omega)
      · rw [if_neg h1, if_neg h1]
        simp only [Bool.false_eq_true, iff_false]
        intro hc
        have hc2 : st.nfcn = -1 := hc
        omega

/-- Loop-level form of the success return: when neither error code is
produced, the result is the function-evaluation count 1 + 6k. -/
theorem rk5_loop_nfcn_form (p : RK5Params) (adj : Bool) (hmax : ℚ) :
    ∀ (fuel : ℕ) (st : RK5State), (∃ m : ℕ, st.nfcn = 1 + 6 * m) →
      (rk5_loop p adj hmax fuel st).1 ≠ -1 →
      (rk5_loop p adj hmax fuel st).1 ≠ -2 →
      ∃ k : ℕ, (rk5_loop p adj hmax fuel st).1 = 1 + 6 * k := by
  intro fuel
  induction fuel with
  | zero =>
      intro st hm h1 h2
      rw [rk5_loop] at h1 h2 ⊢
      by_cases hc1 : st.t < p.tnext
      · rw [if_pos hc1] at h1 h2 ⊢
        by_cases hc2 : (1 / 10) * |st.h| ≤ |st.t| * UROUND
        · rw [if_pos hc2] at h2
          exact absurd rfl h2
        · rw [if_neg hc2] at h1
          exact absurd rfl h1
      · rw [if_neg hc1] at h1 h2 ⊢
        exact hm
  | succ f ih =>
      intro st hm h1 h2
      rw [rk5_loop] at h1 h2 ⊢
      by_cases hc1 : st.t < p.tnext
      · rw [if_pos hc1] at h1 h2 ⊢
        by_cases hc2 : (1 / 10) * |st.h| ≤ |st.t| * UROUND
        · rw [if_pos hc2] at h2
          exact absurd rfl h2
        · rw [if_neg hc2] at h1 h2 ⊢
          refine ih _ ?_ h1 h2
          obtain ⟨m, hm⟩ := hm
          refine ⟨m + 1, ?_⟩
          rw [rk5_step_nfcn]
          change st.nfcn + 6 = _
          rw [hm]
          push_cast
          ring
      · rw [if_neg hc1] at h1 h2 ⊢
        exact hm

/-- C5 (amended): rk5_integrate returns -2 exactly when, at the start of an
internal step, the zero-step check 0.1|h| <= |t| UROUND (UROUND = 2.3e-16)
fires; it returns -1 exactly when the internal step counter reaches the
opened maximum (Itmax, 1000 as opened by the chemistry engine) first; and
otherwise it returns the number of function evaluations, which is 1 + 6k
after k internal steps. -/
theorem rk5_integrate_characterization (p : RK5Params) :
    (rk5_integrate p = -2 ↔
      rk5_urTriggered p (rk5_adj p) (p.tnext - p.t0) (p.itmax - 2)
        (rk5_init p) = true) ∧
    (rk5_integrate p = -1 ↔
      rk5_maxTriggered p (rk5_adj p) (p.tnext - p.t0) (p.itmax - 2)
        (rk5_init p) = true) ∧
    (rk5_integrate p ≠ -1 → rk5_integrate p ≠ -2 →
      ∃ k : ℕ, rk5_integrate p = 1 + 6 * k) := by
  have hn : (rk5_init p).nfcn = 1 := rfl
  refine ⟨?_, ?_, ?_⟩
  · exact rk5_loop_minus2_iff p (rk5_adj p) (p.tnext - p.t0) (p.itmax - 2)
      (rk5_init p) (by rw [hn]; norm_num)
  · exact rk5_loop_minus1_iff p (rk5_adj p) (p.tnext - p.t0) (p.itmax - 2)
      (rk5_init p) (by rw [hn]; norm_num)
  · exact rk5_loop_nfcn_form p (rk5_adj p) (p.tnext - p.t0) (p.itmax - 2)
      (rk5_init p) ⟨0, by rw [hn]; norm_num⟩

/-- C5 (counterexample to the claim as stated): on the counterexample
parameters the integrator returns -2 on its first internal step although
the step size, recorded at the start of every internal step, is 10^-6
throughout and never shrinks below 10^-8: the -2 condition of the source is
0.1|h| <= |t| UROUND, which fires here because |t| = 10^10 is large, not
because h shrank below 10^-8. -/
theorem rk5_minus2_without_small_h :
    rk5_run rk5CounterParams = (-2, [1 / 10 ^ 6]) ∧
      ¬((1 : ℚ) / 10 ^ 6 < 1 / 10 ^ 8) := by
  constructor
  · have h1 : rk5_init rk5CounterParams =
        ⟨fun _ => 0, fun _ => 0, 10 ^ 10, 1 / 10 ^ 6, 1 / 10 ^ 4, false, 1,
          1 / 10 ^ 6, []⟩ := by
      norm_num [rk5_init, rk5CounterParams, max_def]
    have h2 : rk5_adj rk5CounterParams = true := by
      norm_num [rk5_adj, rk5CounterParams]
    rw [rk5_run, h1, h2, rk5_loop]
    norm_num [rk5CounterParams, UROUND, abs_of_pos]
  · norm_num


/-! ### Claim C6 proofs -/

/-- The inflow consumption loop never lengthens the list, and it keeps the
list length below the nsegs counter. -/
theorem inflowLoop_length :
    ∀ (segs : List Seg6) (v : ℚ) (ns : ℕ),
      (inflowLoop segs v ns).1.length ≤ segs.length ∧
      (segs.length ≤ ns →
        (inflowLoop segs v ns).1.length ≤ (inflowLoop segs v ns).2) := by
  intro segs
  induction segs with
  | nil => intro v ns; exact ⟨le_refl _, fun _ => by simp [inflowLoop]⟩
  | cons seg rest ih =>
      intro v ns
      unfold inflowLoop
      by_cases hv : v > 0
      · rw [if_pos hv]
        by_cases hc : seg.v ≤ min seg.v v
        · rw [if_pos hc]
          refine ⟨le_trans (ih _ _).1 (by simp), fun hlen => ?_⟩
          exact (ih (v - min seg.v v) (ns - 1)).2 (by simp at hlen ⊢; omega)
        · rw [if_neg hc]
          exact ⟨by simp, fun hlen => by simpa using hlen⟩
      · rw [if_neg hv]
        exact ⟨le_refl _, fun hlen => hlen⟩

/-- Budget invariant of the transport operations: at every reachable state
the segment-list length is bounded by the nsegs counter and by
MaxSegments. -/
theorem qualReach_budget (cfg : QualConfig) (hmax : 50 ≤ cfg.maxSegments) :
    ∀ s : LinkState, QualReach cfg s →
      s.segs.length ≤ s.nsegs ∧ s.segs.length ≤ cfg.maxSegments := by
  intro s hs
  induction hs with
  | opened => exact ⟨le_refl 0, by simp⟩
  | initSegs c v s hr ih =>
      unfold initSegsLink
      by_cases hv : v > 0
      · rw [if_pos hv]
        constructor
        · simp
        · simp [min_le_right]
      · rw [if_neg hv]
        simp
  | outflow newSegC q tstep upnode s hr ih =>
      unfold evalnodeoutflow
      by_cases hv : (|q| * tstep : ℚ) = 0
      · rw [if_pos hv]; exact ih
      · rw [if_neg hv]
        dsimp only
        cases hlast : s.segs.getLast? with
        | none =>
            have hnil : s.segs = [] := by
              cases hseg : s.segs with
              | nil => rfl
              | cons a l => rw [hseg] at hlast; simp [List.getLast?] at hlast
            simp [hnil]
            omega
        | some lastSeg =>
            have hne : s.segs ≠ [] := by
              intro hc
              rw [hc] at hlast
              simp at hlast
            dsimp only
            by_cases hcond : ¬(MSXqual_isSame cfg lastSeg.c upnode) = true ∧
                s.nsegs < cfg.maxSegments
            · rw [if_pos hcond]
              simp
              omega
            · rw [if_neg hcond]
              have hlen : (s.segs.dropLast ++ [(⟨lastSeg.v + |q| * tstep,
                  fun m => if cfg.speciesType m = .BULK then
                    (lastSeg.c m * lastSeg.v + upnode m * (|q| * tstep)) /
                      (lastSeg.v + |q| * tstep)
                  else lastSeg.c m⟩ : Seg6)]).length = s.segs.length := by
                simp [List.length_dropLast]
                have : 1 ≤ s.segs.length := List.length_pos.mpr hne
                omega
              constructor
              · rw [hlen]; exact ih.1
              · rw [hlen]; exact ih.2
  | inflow q tstep s hr ih =>
      have h := inflowLoop_length s.segs (|q| * tstep) s.nsegs
      exact ⟨h.2 ih.1, le_trans h.1 ih.2⟩
  | removeAll s hr ih => exact ⟨le_refl 0, by simp⟩
  | reverse s hr ih => simpa using ih


/-- C6: 4-part segment-budget claim.  MaxSegments defaults to 5000; any
accepted SEGMENTS option value is clamped to at least 50; at every point of
a simulation (initialization, advection, release and consumption, list
reversal) the number of segments in a link's list never exceeds
MaxSegments; and when nsegs has reached MaxSegments, releasing a new
upstream segment merges the released volume into the existing last segment
instead of growing the list. -/
theorem segment_budget (cfg : QualConfig) :
    defaultMaxSegments = 5000 ∧
    (∀ k v : ℤ, parseSegmentsOption k = Except.ok v → 50 ≤ v) ∧
    (∀ s : LinkState, 50 ≤ cfg.maxSegments → QualReach cfg s →
      s.segs.length ≤ cfg.maxSegments) ∧
    (∀ (newSegC upnode : ℕ → ℚ) (q tstep : ℚ) (s : LinkState) (lastSeg : Seg6),
      s.segs.getLast? = some lastSeg → cfg.maxSegments ≤ s.nsegs →
      (evalnodeoutflow cfg newSegC q tstep upnode s).segs.length =
        s.segs.length) := by
  refine ⟨rfl, ?_, ?_, ?_⟩
  · intro k v hk
    unfold parseSegmentsOption at hk
    by_cases hkp : k ≤ 0
    · rw [if_pos hkp] at hk
      exact absurd hk (by simp)
    · rw [if_neg hkp] at hk
      have hv : v = max k 50 := by
        injection hk with h
        exact h.symm
      rw [hv]
      exact le_max_right k 50
  · intro s hmax hr
    exact (qualReach_budget cfg hmax s hr).2
  · intro newSegC upnode q tstep s lastSeg hlast hfull
    unfold evalnodeoutflow
    by_cases hv : (|q| * tstep : ℚ) = 0
    · rw [if_pos hv]
    · rw [if_neg hv]
      dsimp only
      rw [hlast]
      dsimp only
      have hne : s.segs ≠ [] := by
        intro hc
        rw [hc] at hlast
        simp at hlast
      rw [if_neg (by intro hc; omega)]
      have : 1 ≤ s.segs.length := List.length_pos.mpr hne
      simp [List.length_dropLast]
      omega

/-- Witness for C6: a configuration with MaxSegments = 50, the state
reached by one segment initialization, and the option value 3. -/
theorem segment_budget_witness :
    (50 ≤ cfg50.maxSegments ∧
      QualReach cfg50 (initSegsLink cfg50 (fun _ => 0) 1 ⟨[], 0⟩) ∧
      (initSegsLink cfg50 (fun _ => 0) 1 ⟨[], 0⟩).segs.length ≤
        cfg50.maxSegments) ∧
    (parseSegmentsOption 3 = Except.ok 50 ∧ 50 ≤ (50 : ℤ)) := by
  have hreach : QualReach cfg50 (initSegsLink cfg50 (fun _ => 0) 1 ⟨[], 0⟩) :=
    QualReach.initSegs _ _ _ QualReach.opened
  have hparse : parseSegmentsOption 3 = Except.ok 50 := by
    unfold parseSegmentsOption
    norm_num
  refine ⟨⟨by norm_num [cfg50], hreach,
    (segment_budget cfg50).2.2.1 _ (by norm_num [cfg50]) hreach⟩,
    hparse, (segment_budget cfg50).2.1 3 50 hparse⟩

/-! ### Claim C9 proofs -/

theorem prevChain_congr (h1 h2 : ℕ → SegPtrs) :
    ∀ l : List ℕ, (∀ y ∈ l, h2 y = h1 y) → prevChain h1 l → prevChain h2 l := by
  intro l
  induction l with
  | nil => intro _ _; trivial
  | cons x xs ih =>
      intro hsame hch
      obtain ⟨hp, hrest⟩ := hch
      exact ⟨by rw [hsame x (List.mem_cons_self x xs)]; exact hp,
        ih (fun y hy => hsame y (List.mem_cons_of_mem x hy)) hrest⟩

theorem isChain_prevChain (heap : ℕ → SegPtrs) :
    ∀ (l : List ℕ) (b : Option ℕ), isChain heap b l → prevChain heap l := by
  intro l
  induction l with
  | nil => intro _ _; trivial
  | cons x xs ih =>
      intro b hch
      obtain ⟨_, hp, hrest⟩ := hch
      exact ⟨hp, ih (some x) hrest⟩

theorem revLoop_spec :
    ∀ (l : List ℕ) (heap : ℕ → SegPtrs) (pseg : Option ℕ),
      prevChain heap l → l.Nodup →
      ∀ x, revLoop l.length heap pseg l.head? x =
        if x ∈ l then ⟨prevIn pseg l x, (heap x).prev⟩ else heap x := by
  intro l
  induction l with
  | nil =>
      intro heap pseg _ _ x
      simp [revLoop]
  | cons x0 xs ih =>
      intro heap pseg hch hnd x
      obtain ⟨hp0, hrest⟩ := hch
      have hx0 : x0 ∉ xs := (List.nodup_cons.mp hnd).1
      have hnd' : xs.Nodup := (List.nodup_cons.mp hnd).2
      have heap1 : prevChain (upd heap x0 ⟨pseg, xs.head?⟩) xs := by
        refine prevChain_congr heap _ xs (fun y hy => ?_) hrest
        unfold upd
        rw [if_neg]
        intro hcon
        exact hx0 (hcon ▸ hy)
      have step : revLoop (x0 :: xs).length heap pseg (x0 :: xs).head? =
          revLoop xs.length (upd heap x0 ⟨pseg, (heap x0).prev⟩) (some x0)
            ((heap x0).prev) := by
        rfl
      rw [step, hp0]
      rw [ih (upd heap x0 ⟨pseg, xs.head?⟩) (some x0) heap1 hnd' x]
      by_cases hx : x = x0
      · subst hx
        rw [if_neg hx0, if_pos (List.mem_cons_self x xs),
          show upd heap x ⟨pseg, xs.head?⟩ x = ⟨pseg, xs.head?⟩ from
            if_pos rfl,
          show prevIn pseg (x :: xs) x = if x = x then pseg
            else prevIn (some x) xs x from rfl,
          if_pos rfl, hp0]
      · by_cases hmem : x ∈ xs
        · rw [if_pos hmem, if_pos (List.mem_cons_of_mem x0 hmem),
            show prevIn pseg (x0 :: xs) x = if x = x0 then pseg
              else prevIn (some x0) xs x from rfl,
            if_neg hx,
            show upd heap x0 ⟨pseg, xs.head?⟩ x = if x = x0
              then (⟨pseg, xs.head?⟩ : SegPtrs) else heap x from rfl,
            if_neg hx]
        · rw [if_neg hmem, if_neg (by simp [hx, hmem]),
            show upd heap x0 ⟨pseg, xs.head?⟩ x = if x = x0
              then (⟨pseg, xs.head?⟩ : SegPtrs) else heap x from rfl,
            if_neg hx]

theorem prevIn_eq_next (heap : ℕ → SegPtrs) :
    ∀ (l : List ℕ) (b : Option ℕ), isChain heap b l →
      ∀ x ∈ l, prevIn b l x = (heap x).next := by
  intro l
  induction l with
  | nil => intro b _ x hx; exact absurd hx (List.not_mem_nil x)
  | cons y ys ih =>
      intro b hch x hx
      obtain ⟨hn, hp, hrest⟩ := hch
      by_cases hxy : x = y
      · subst hxy
        unfold prevIn
        rw [if_pos rfl, hn]
      · unfold prevIn
        rw [if_neg hxy]
        exact ih (some y) hrest x ((List.mem_cons.mp hx).resolve_left hxy)

theorem isChain_reverseAux (h1 h2 : ℕ → SegPtrs) :
    ∀ (l acc : List ℕ) (b : Option ℕ),
      (∀ x ∈ l, h2 x = ⟨(h1 x).next, (h1 x).prev⟩) →
      isChain h1 b l → isChain h2 l.head? acc → acc.head? = b →
      isChain h2 none (List.reverseAux l acc) := by
  intro l
  induction l with
  | nil => intro acc b _ _ hacc _; exact hacc
  | cons x xs ih =>
      intro acc b hsw hch hacc hhead
      obtain ⟨hn, hp, hrest⟩ := hch
      have hx : h2 x = ⟨(h1 x).next, (h1 x).prev⟩ :=
        hsw x (List.mem_cons_self x xs)
      refine ih (x :: acc) (some x)
        (fun y hy => hsw y (List.mem_cons_of_mem x hy)) hrest ?_ rfl
      refine ⟨?_, ?_, hacc⟩
      · rw [hx]; exact hp
      · rw [hx]; rw [hn, hhead]



/-- Effect of one reversal on a well-formed chain: members get their prev and
next pointers exchanged, non-members are untouched, and the result is a
well-formed chain of the reversed list. -/
theorem reversesegs_spec (L : LinkSegs) (segs : List ℕ) (h : wellFormed L segs) :
    (∀ x ∈ segs, (MSXqual_reversesegs segs.length L).heap x =
      ⟨(L.heap x).next, (L.heap x).prev⟩) ∧
    (∀ x, x ∉ segs → (MSXqual_reversesegs segs.length L).heap x = L.heap x) ∧
    wellFormed (MSXqual_reversesegs segs.length L) segs.reverse := by
  obtain ⟨hnd, hf, hl, hch⟩ := h
  have hloop : ∀ x, (MSXqual_reversesegs segs.length L).heap x =
      if x ∈ segs then ⟨prevIn none segs x, (L.heap x).prev⟩ else L.heap x := by
    intro x
    show revLoop segs.length L.heap none L.first x = _
    rw [hf]
    exact revLoop_spec segs L.heap none (isChain_prevChain L.heap segs none hch)
      hnd x
  have hswap : ∀ x ∈ segs, (MSXqual_reversesegs segs.length L).heap x =
      ⟨(L.heap x).next, (L.heap x).prev⟩ := by
    intro x hx
    rw [hloop x, if_pos hx, prevIn_eq_next L.heap segs none hch x hx]
  refine ⟨hswap, ?_, ?_⟩
  · intro x hx
    rw [hloop x, if_neg hx]
  · refine ⟨List.nodup_reverse.mpr hnd, ?_, ?_, ?_⟩
    · show L.last = segs.reverse.head?
      rw [hl, List.head?_reverse]
    · show L.first = segs.reverse.getLast?
      rw [hf, List.getLast?_reverse]
    · show isChain (MSXqual_reversesegs segs.length L).heap none segs.reverse
      have : segs.reverse = List.reverseAux segs [] := rfl
      rw [this]
      exact isChain_reverseAux L.heap _ segs [] none hswap hch trivial rfl

/-- C9: for every link whose segment list is a well-formed doubly linked
chain, one application of MSXqual_reversesegs maps the segment sequence to
its exact reverse -- swapping FirstSeg and LastSeg and exchanging every
chain segment's prev and next pointers, touching nothing else -- and
applying it twice restores the complete pointer state. -/
theorem reversesegs_exact_and_involutive (L : LinkSegs) (segs : List ℕ)
    (h : wellFormed L segs) :
    wellFormed (MSXqual_reversesegs segs.length L) segs.reverse ∧
    (MSXqual_reversesegs segs.length L).first = L.last ∧
    (MSXqual_reversesegs segs.length L).last = L.first ∧
    (∀ x ∈ segs, (MSXqual_reversesegs segs.length L).heap x =
      ⟨(L.heap x).next, (L.heap x).prev⟩) ∧
    (∀ x, x ∉ segs → (MSXqual_reversesegs segs.length L).heap x = L.heap x) ∧
    MSXqual_reversesegs segs.length (MSXqual_reversesegs segs.length L) = L := by
  obtain ⟨hswap1, hout1, hwf1⟩ := reversesegs_spec L segs h
  have hlen : segs.reverse.length = segs.length := List.length_reverse segs
  obtain ⟨hswap2, hout2, hwf2⟩ := reversesegs_spec _ segs.reverse hwf1
  rw [hlen] at hswap2 hout2 hwf2
  refine ⟨hwf1, rfl, rfl, hswap1, hout1, ?_⟩
  have hheap : (MSXqual_reversesegs segs.length
      (MSXqual_reversesegs segs.length L)).heap = L.heap := by
    funext x
    by_cases hx : x ∈ segs
    · rw [hswap2 x (List.mem_reverse.mpr hx), hswap1 x hx]
    · rw [hout2 x (fun hc => hx (List.mem_reverse.mp hc)), hout1 x hx]
  calc MSXqual_reversesegs segs.length (MSXqual_reversesegs segs.length L)
      = ⟨(MSXqual_reversesegs segs.length
          (MSXqual_reversesegs segs.length L)).heap, L.first, L.last⟩ := rfl
    _ = ⟨L.heap, L.first, L.last⟩ := by rw [hheap]
    _ = L := rfl

/-- Witness for C9: the concrete three-segment chain is well formed and two
reversals restore it exactly. -/
theorem reversesegs_exact_and_involutive_witness :
    wellFormed chain3 [1, 2, 3] ∧
      MSXqual_reversesegs 3 (MSXqual_reversesegs 3 chain3) = chain3 := by
  have hwf : wellFormed chain3 [1, 2, 3] := by
    refine ⟨by decide, rfl, rfl, ?_⟩
    simp [isChain, chain3]
  exact ⟨hwf,
    (reversesegs_exact_and_involutive chain3 [1, 2, 3] hwf).2.2.2.2.2⟩

/-- Boundary form of the running-maximum update used by newton_solve. -/
theorem ite_gt_eq_max (e x : ℚ) : (if x > e then x else e) = max e x := by
  rcases le_or_lt x e with h | h
  · rw [if_neg (not_lt.mpr h), max_eq_left h]
  · rw [if_pos h, max_eq_right h.le]

/-- The source's convergence measure coincides with the amended claim's
measure |dx[i]| / max(x[i], relconvg) whenever relconvg is positive. -/
theorem newtonErrmax_eq_amended (n : ℕ) (relconvg : ℚ) (hr : 0 < relconvg)
    (x d : ℕ → ℚ) :
    newtonErrmax n relconvg x d = newtonErrmaxAmended n relconvg x d := by
  unfold newtonErrmax newtonErrmaxAmended
  refine rangeFold_congr 1 n _ _ ?_ 0
  intro i e
  have hc : (if x i < relconvg then relconvg else x i) = max (x i) relconvg := by
    rcases le_or_lt relconvg (x i) with h | h
    · rw [if_neg (not_lt.mpr h), max_eq_left h]
    · rw [if_pos h, max_eq_right h.le]
  have hpos : 0 < max (x i) relconvg := lt_of_lt_of_le hr (le_max_right _ _)
  rw [hc, ite_gt_eq_max, abs_div, abs_of_pos hpos]

/-- Iteration-loop equality between the translated solver and the amended
specification loop. -/
theorem newtonLoop_eq_amended (n : ℕ) (relconvg : ℚ) (hr : 0 < relconvg)
    (func : ℚ → (ℕ → ℚ) → ℕ → (ℕ → ℚ)) :
    ∀ (it : ℕ) (x : ℕ → ℚ) (k : ℤ),
      newtonLoop n relconvg func it x k = newtonLoopAmended n relconvg func it x k := by
  intro it
  induction it with
  | zero => intro x k; rfl
  | succ m ih =>
      intro x k
      unfold newtonLoop newtonLoopAmended
      cases hs : newtonStep n func x with
      | none => rfl
      | some p =>
          dsimp only
          rw [newtonErrmax_eq_amended n relconvg hr x p.2, ih]

/-- C2 (amended): newton_solve returns -3 when n exceeds the opened
capacity, -1 when the Jacobian factorization is singular, -2 when maxit
iterations pass without convergence, and otherwise the count of the first
iteration at which the maximum over i of |dx[i]| / max(x[i], 10^(-numsig)),
with the signed pre-update component x[i] in the scaling, is at or below
10^(-numsig). -/
theorem newton_solve_eq_amended (x : ℕ → ℚ) (n maxit : ℕ) (numsig : ℤ)
    (nmax : ℕ) (func : ℚ → (ℕ → ℚ) → ℕ → (ℕ → ℚ)) :
    newton_solve x n maxit numsig nmax func =
      newton_solveAmended x n maxit numsig nmax func := by
  unfold newton_solve newton_solveAmended
  split
  · rfl
  · exact newtonLoop_eq_amended n _ (zpow_pos (by norm_num) _) func maxit x 1

/-- C8: on finalization the reported mass-balance ratio of species m equals
(outflow + final stored + net reacted loss) divided by (initial stored +
inflow + in-dispersed + net reacted gain), where the total reacted mass over
all links and tanks contributes its magnitude to the numerator when negative
and its value to the denominator when non-negative; stated for every species
whose denominator is nonzero (the code reports 1.0 when it is zero). -/
theorem massBalanceRatio_eq (b : SmassBalance) (r : ReactedState) (m : ℕ)
    (hden : b.initial m + b.inflow m + b.indisperse m +
      (if 0 ≤ sreacted r m then sreacted r m else 0) ≠ 0) :
    massBalanceRatio b r m =
      (b.outflow m + b.final m +
          (if sreacted r m < 0 then -sreacted r m else 0)) /
        (b.initial m + b.inflow m + b.indisperse m +
          (if 0 ≤ sreacted r m then sreacted r m else 0)) := by
  unfold massBalanceRatio
  rcases lt_or_le (sreacted r m) 0 with hneg | hpos
  · simp only [if_pos hneg, if_neg (not_le.mpr hneg), add_zero] at hden ⊢
    rw [if_neg hden, sub_eq_add_neg]
  · simp only [if_neg (not_lt.mpr hpos), if_pos hpos, add_zero] at hden ⊢
    rw [if_neg hden]

/-- Witness for C8: a concrete mass balance with one link, one tank and a
positive total reacted mass evaluates to the claimed quotient. -/
theorem massBalanceRatio_eq_witness :
    (((10 : ℚ) + 2 + 1 + (if (0 : ℚ) ≤ 3 + 1 then 3 + 1 else 0)) ≠ 0) ∧
      massBalanceRatio
        ⟨fun _ => 10, fun _ => 2, fun _ => 1, fun _ => 4, fun _ => 6⟩
        ⟨[fun _ => 3], [fun _ => 1]⟩ 1 = 10 / 17 := by
  refine ⟨by norm_num [sreacted], ?_⟩
  have h := massBalanceRatio_eq
    ⟨fun _ => 10, fun _ => 2, fun _ => 1, fun _ => 4, fun _ => 6⟩
    ⟨[fun _ => 3], [fun _ => 1]⟩ 1 (by norm_num [sreacted])
  rw [h]
  norm_num [sreacted]

/-- C1 (code bug): with two terms of which only the last (Term 2) references
itself, checkCyclicTerms returns 0 even though a cyclic term reference
exists, because its outer loop runs only for i = 1 .. n-1 and never starts a
trace from the last term.  The spec requires an input error (return 1) for
every cycle. -/
theorem checkCyclicTerms_misses_last_term :
    checkCyclicTerms lastTermSelfRef 2 = 0 := by
  decide

/-! ### Claim C7 proofs -/

/-- Membership description of the 1-based index range. -/
theorem mem_range_one (m N : ℕ) : m ∈ List.range' 1 N ↔ 1 ≤ m ∧ m ≤ N := by
  rw [List.mem_range']
  constructor
  · rintro ⟨i, hi, rfl⟩; omega
  · rintro ⟨h1, h2⟩; exact ⟨m - 1, by omega, by omega⟩

/-- Unfolding the last iteration of a 1-based rangeFold. -/
theorem rangeFold_one_succ {α : Type*} (N : ℕ) (f : ℕ → α → α) (s : α) :
    rangeFold 1 (N + 1) f s = f (N + 1) (rangeFold 1 N f s) := by
  unfold rangeFold
  have h1 : N + 1 + 1 - 1 = N + 1 := by omega
  have h2 : N + 1 - 1 = N := by omega
  rw [h1, h2, List.range'_concat, List.foldl_append]
  simp only [List.foldl_cons, List.foldl_nil]
  congr 1
  omega

/-- Contents of the initial stack of sortNodes: exactly the in-range nodes
with zero in-degree, without duplicates. -/
theorem pushFold_spec (ind : ℕ → ℕ) :
    ∀ N : ℕ,
      (rangeFold 1 N (fun i st => if ind i = 0 then i :: st else st) []).Nodup ∧
      (∀ n, n ∈ rangeFold 1 N (fun i st => if ind i = 0 then i :: st else st) []
        ↔ 1 ≤ n ∧ n ≤ N ∧ ind n = 0) := by
  intro N
  induction N with
  | zero =>
      constructor
      · simp [rangeFold]
      · intro n; simp [rangeFold]; omega
  | succ M ih =>
      rw [rangeFold_one_succ]
      by_cases hz : ind (M + 1) = 0
      · rw [if_pos hz]
        refine ⟨?_, ?_⟩
        · refine List.nodup_cons.mpr ⟨?_, ih.1⟩
          intro hc
          have := (ih.2 (M + 1)).mp hc
          omega
        · intro n
          rw [List.mem_cons, ih.2 n]
          constructor
          · rintro (rfl | h)
            · exact ⟨by omega, by omega, hz⟩
            · exact ⟨h.1, by omega, h.2.2⟩
          · rintro ⟨h1, h2, h3⟩
            by_cases hn : n = M + 1
            · exact Or.inl hn
            · exact Or.inr ⟨h1, by omega, h3⟩
      · rw [if_neg hz]
        refine ⟨ih.1, ?_⟩
        intro n
        rw [ih.2 n]
        constructor
        · rintro ⟨h1, h2, h3⟩
          exact ⟨h1, by omega, h3⟩
        · rintro ⟨h1, h2, h3⟩
          refine ⟨h1, ?_, h3⟩
          rcases Nat.lt_or_ge n (M + 1) with h | h
          · omega
          · exfalso
            have : n = M + 1 := by omega
            rw [this] at h3
            exact hz h3

/-- The in-degree reduction loop preserves the sort invariant: the stack
plus the already-sorted nodes stay duplicate-free and in range, and a node
is on the stack or sorted exactly when its in-degree is zero. -/
theorem processAdj_inv (net : SortNet) (N : ℕ)
    (hends : ∀ k, 1 ≤ net.n1 k ∧ net.n1 k ≤ N ∧ 1 ≤ net.n2 k ∧ net.n2 k ≤ N)
    (i : ℕ) (os : List ℕ) :
    ∀ (alist : List (ℕ × ℕ)) (ind : ℕ → ℕ) (stk : List ℕ),
      (stk ++ os).Nodup →
      (∀ n ∈ stk ++ os, 1 ≤ n ∧ n ≤ N) →
      (∀ n, 1 ≤ n → n ≤ N → ((n ∈ stk ∨ n ∈ os) ↔ ind n = 0)) →
      ((processAdj net i alist ind stk).2 ++ os).Nodup ∧
      (∀ n ∈ (processAdj net i alist ind stk).2 ++ os, 1 ≤ n ∧ n ≤ N) ∧
      (∀ n, 1 ≤ n → n ≤ N →
        ((n ∈ (processAdj net i alist ind stk).2 ∨ n ∈ os) ↔
          (processAdj net i alist ind stk).1 n = 0)) := by
  intro alist
  induction alist with
  | nil =>
      intro ind stk h1 h2 h3
      exact ⟨h1, h2, h3⟩
  | cons al rest ih =>
      intro ind stk h1 h2 h3
      unfold processAdj
      by_cases hz : net.flowDir al.2 = 0
      · rw [if_pos hz]
        exact ih ind stk h1 h2 h3
      · rw [if_neg hz]
        dsimp only
        set n := if net.flowDir al.2 < 0 then net.n1 al.2 else net.n2 al.2
          with hn
        by_cases hcond : n ≠ i ∧ 0 < ind n
        · rw [if_pos hcond]
          have hnrange : 1 ≤ n ∧ n ≤ N := by
            rw [hn]
            by_cases hd : net.flowDir al.2 < 0
            · rw [if_pos hd]
              exact ⟨(hends al.2).1, (hends al.2).2.1⟩
            · rw [if_neg hd]
              exact ⟨(hends al.2).2.2.1, (hends al.2).2.2.2⟩
          have hnot : n ∉ stk ++ os := by
            intro hc
            have := (h3 n hnrange.1 hnrange.2).mp (List.mem_append.mp hc)
            omega
          by_cases hone : upd ind n (ind n - 1) n = 0
          · rw [if_pos hone]
            refine ih _ _ (List.nodup_cons.mpr ⟨hnot, h1⟩) ?_ ?_
            · intro m hm
              rcases List.mem_append.mp hm with h | h
              · rcases List.mem_cons.mp h with rfl | h'
                · exact hnrange
                · exact h2 m (List.mem_append.mpr (Or.inl h'))
              · exact h2 m (List.mem_append.mpr (Or.inr h))
            · intro m hm1 hm2
              by_cases hmn : m = n
              · subst hmn
                exact ⟨fun _ => hone,
                  fun _ => Or.inl (List.mem_cons_self n stk)⟩
              · rw [show upd ind n (ind n - 1) m = ind m from by
                  unfold upd; rw [if_neg hmn]]
                rw [← h3 m hm1 hm2]
                constructor
                · rintro (h | h)
                  · rcases List.mem_cons.mp h with h' | h'
                    · exact absurd h' hmn
                    · exact Or.inl h'
                  · exact Or.inr h
                · rintro (h | h)
                  · exact Or.inl (List.mem_cons_of_mem n h)
                  · exact Or.inr h
          · rw [if_neg hone]
            refine ih _ _ h1 h2 ?_
            intro m hm1 hm2
            by_cases hmn : m = n
            · subst hmn
              exact ⟨fun hc => absurd (List.mem_append.mpr hc) hnot,
                fun hc => absurd hc hone⟩
            · rw [show upd ind n (ind n - 1) m = ind m from by
                unfold upd; rw [if_neg hmn]]
              exact h3 m hm1 hm2
        · rw [if_neg hcond]
          exact ih ind stk h1 h2 h3


/-- A node returned by the first loop of selectnonstacknode is in range and
still has inflow links. -/
theorem selectFromSorted_some (net : SortNet) (N : ℕ) (ind : ℕ → ℕ)
    (hadjN : ∀ i al, al ∈ net.adj i → 1 ≤ al.1 ∧ al.1 ≤ N) :
    ∀ (l : List ℕ) (j : ℕ), selectFromSorted net ind l = some j →
      1 ≤ j ∧ j ≤ N ∧ 0 < ind j := by
  intro l
  induction l with
  | nil => intro j hj; simp [selectFromSorted] at hj
  | cons m rest ih =>
      intro j hj
      unfold selectFromSorted at hj
      cases hf : (net.adj m).find? (fun al => 0 < ind al.1) with
      | none => rw [hf] at hj; exact ih j hj
      | some al =>
          rw [hf] at hj
          have hj2 : j = al.1 := by injection hj with h; exact h.symm
          have hmem := List.mem_of_find?_eq_some hf
          have hpred := List.find?_some hf
          subst hj2
          refine ⟨(hadjN m al hmem).1, (hadjN m al hmem).2, ?_⟩
          simpa using hpred

/-- selectnonstacknode returns a node with remaining inflow whenever one
exists, and only such nodes. -/
theorem selectnonstacknode_spec (net : SortNet) (ind : ℕ → ℕ)
    (sorted : List ℕ)
    (hadjN : ∀ i al, al ∈ net.adj i → 1 ≤ al.1 ∧ al.1 ≤ net.nNodes) :
    (selectnonstacknode net ind sorted ≠ 0 →
      1 ≤ selectnonstacknode net ind sorted ∧
      selectnonstacknode net ind sorted ≤ net.nNodes ∧
      0 < ind (selectnonstacknode net ind sorted)) ∧
    ((∃ n, 1 ≤ n ∧ n ≤ net.nNodes ∧ 0 < ind n) →
      selectnonstacknode net ind sorted ≠ 0) := by
  unfold selectnonstacknode
  cases hs : selectFromSorted net ind sorted.reverse with
  | some j =>
      have h := selectFromSorted_some net net.nNodes ind hadjN
        sorted.reverse j hs
      exact ⟨fun _ => h, fun _ => by show j ≠ 0; omega⟩
  | none =>
      cases hf : (List.range' 1 net.nNodes).find? (fun i => 0 < ind i) with
      | some i =>
          have hmem := List.mem_of_find?_eq_some hf
          have hpred := List.find?_some hf
          have hrange := (mem_range_one i net.nNodes).mp hmem
          exact ⟨fun _ => ⟨hrange.1, hrange.2, by simpa using hpred⟩,
            fun _ => by show i ≠ 0; omega⟩
      | none =>
          refine ⟨fun hc => absurd rfl hc, ?_⟩
          rintro ⟨n, hn1, hn2, hn3⟩
          exfalso
          have : ((List.range' 1 net.nNodes).find?
              (fun i => 0 < ind i)).isSome := by
            rw [List.find?_isSome]
            exact ⟨n, (mem_range_one n net.nNodes).mpr ⟨hn1, hn2⟩,
              by simpa using hn3⟩
          rw [hf] at this
          simp at this

/-- Under the sort invariant at most nNodes nodes are on the stack or
sorted. -/
theorem sortInv_length (N : ℕ) (s : SortState) (h : SortInv N s) :
    (s.stack ++ s.sorted).length ≤ N := by
  have hsub : s.stack ++ s.sorted ⊆ List.range' 1 N := by
    intro n hn
    exact (mem_range_one n N).mpr (h.2.1 n hn)
  have := (List.subperm_of_subset h.1 hsub).length_le
  simpa using this


/-- The sort loop, given the invariant and enough fuel (one unit per node
left to sort), never hits the failure break and ends with every node
sorted. -/
theorem sortLoop_complete (net : SortNet)
    (hends : ∀ k, 1 ≤ net.n1 k ∧ net.n1 k ≤ net.nNodes ∧
      1 ≤ net.n2 k ∧ net.n2 k ≤ net.nNodes)
    (hadjN : ∀ i al, al ∈ net.adj i → 1 ≤ al.1 ∧ al.1 ≤ net.nNodes) :
    ∀ (fuel : ℕ) (s : SortState), SortInv net.nNodes s →
      net.nNodes ≤ fuel + s.sorted.length →
      SortInv net.nNodes (sortLoop net fuel s).1 ∧
      (sortLoop net fuel s).2 = false ∧
      (sortLoop net fuel s).1.sorted.length = net.nNodes := by
  intro fuel
  induction fuel with
  | zero =>
      intro s hinv hlen
      refine ⟨hinv, rfl, ?_⟩
      have h1 := sortInv_length net.nNodes s hinv
      rw [List.length_append] at h1
      show s.sorted.length = net.nNodes
      omega
  | succ f ih =>
      intro s hinv hlen
      rw [sortLoop]
      by_cases hc : s.sorted.length < net.nNodes
      · rw [if_pos hc]
        obtain ⟨hnd, hrange, hmem⟩ := hinv
        cases hstack : s.stack with
        | cons i rest =>
            rw [hstack] at hnd hrange hmem
            have hndI : (rest ++ (s.sorted ++ [i])).Nodup := by
              rw [← List.append_assoc]
              exact ((List.perm_append_singleton i
                (rest ++ s.sorted)).nodup_iff).mpr (by simpa using hnd)
            have hrangeI : ∀ n ∈ rest ++ (s.sorted ++ [i]),
                1 ≤ n ∧ n ≤ net.nNodes := by
              intro n hn
              refine hrange n ?_
              simp only [List.mem_append, List.mem_cons,
                List.mem_singleton] at hn ⊢
              tauto
            have hmemI : ∀ n, 1 ≤ n → n ≤ net.nNodes →
                ((n ∈ rest ∨ n ∈ s.sorted ++ [i]) ↔ s.indegree n = 0) := by
              intro n h1 h2
              rw [← hmem n h1 h2]
              simp only [List.mem_append, List.mem_cons, List.mem_singleton]
              tauto
            have hpost := processAdj_inv net net.nNodes hends i
              (s.sorted ++ [i]) (net.adj i) s.indegree rest hndI hrangeI hmemI
            refine ih ⟨(processAdj net i (net.adj i) s.indegree rest).1,
              (processAdj net i (net.adj i) s.indegree rest).2,
              s.sorted ++ [i]⟩ ⟨hpost.1, hpost.2.1, hpost.2.2⟩ ?_
            rw [List.length_append]
            simp only [List.length_singleton]
            omega
        | nil =>
            rw [hstack] at hnd hrange hmem
            simp only [List.nil_append] at hnd hrange
            have hmem2 : ∀ n, 1 ≤ n → n ≤ net.nNodes →
                (n ∈ s.sorted ↔ s.indegree n = 0) := by
              intro n h1 h2
              rw [← hmem n h1 h2]
              simp
            have hex : ∃ n, 1 ≤ n ∧ n ≤ net.nNodes ∧ 0 < s.indegree n := by
              by_contra hno
              push_neg at hno
              have hsub : List.range' 1 net.nNodes ⊆ s.sorted := by
                intro n hn
                have hr := (mem_range_one n net.nNodes).mp hn
                have := hno n hr.1 hr.2
                exact (hmem2 n hr.1 hr.2).mpr (by omega)
              have := (List.subperm_of_subset (List.nodup_range' 1 net.nNodes)
                hsub).length_le
              rw [List.length_range'] at this
              omega
            have hsel := selectnonstacknode_spec net s.indegree s.sorted hadjN
            have hj0 : selectnonstacknode net s.indegree s.sorted ≠ 0 :=
              hsel.2 hex
            have hjp := hsel.1 hj0
            rw [if_neg hj0]
            set j := selectnonstacknode net s.indegree s.sorted with hjdef
            have hjnot : j ∉ s.sorted := by
              intro hcj
              have := (hmem2 j hjp.1 hjp.2.1).mp hcj
              omega
            have hndI : (([] : List ℕ) ++ (s.sorted ++ [j])).Nodup := by
              simp only [List.nil_append]
              exact ((List.perm_append_singleton j s.sorted).nodup_iff).mpr
                (List.nodup_cons.mpr ⟨hjnot, hnd⟩)
            have hrangeI : ∀ n ∈ ([] : List ℕ) ++ (s.sorted ++ [j]),
                1 ≤ n ∧ n ≤ net.nNodes := by
              intro n hn
              simp only [List.nil_append, List.mem_append,
                List.mem_singleton] at hn
              rcases hn with h | h
              · exact hrange n h
              · exact h ▸ ⟨hjp.1, hjp.2.1⟩
            have hmemI : ∀ n, 1 ≤ n → n ≤ net.nNodes →
                ((n ∈ ([] : List ℕ) ∨ n ∈ s.sorted ++ [j]) ↔
                  upd s.indegree j 0 n = 0) := by
              intro n h1 h2
              by_cases hnj : n = j
              · subst hnj
                constructor
                · intro _
                  unfold upd
                  rw [if_pos rfl]
                · intro _
                  exact Or.inr (List.mem_append.mpr (Or.inr
                    (List.mem_singleton.mpr rfl)))
              · rw [show upd s.indegree j 0 n = s.indegree n from by
                  unfold upd; rw [if_neg hnj]]
                rw [← hmem2 n h1 h2]
                simp only [List.not_mem_nil, false_or, List.mem_append,
                  List.mem_singleton]
                tauto
            have hpost := processAdj_inv net net.nNodes hends j
              (s.sorted ++ [j]) (net.adj j) (upd s.indegree j 0) [] hndI
              hrangeI hmemI
            refine ih ⟨(processAdj net j (net.adj j)
              (upd s.indegree j 0) []).1,
              (processAdj net j (net.adj j) (upd s.indegree j 0) []).2,
              s.sorted ++ [j]⟩ ⟨hpost.1, hpost.2.1, hpost.2.2⟩ ?_
            rw [List.length_append]
            simp only [List.length_singleton]
            omega
      · rw [if_neg hc]
        refine ⟨hinv, rfl, ?_⟩
        have h1 := sortInv_length net.nNodes s hinv
        rw [List.length_append] at h1
        show s.sorted.length = net.nNodes
        omega


/-- C7: for every network and every assignment of flow directions,
including flow graphs with directed cycles, sortNodes terminates without
error and fills the sorted order with a complete permutation of the node
indices 1..nNodes, each node appearing exactly once, using the cycle
fallback of freeing an unsorted node adjacent to a sorted one.  The
hypotheses state that link endpoints and adjacency-list node entries are
valid node indices. -/
theorem sortNodes_complete_permutation (net : SortNet)
    (hends : ∀ k, 1 ≤ net.n1 k ∧ net.n1 k ≤ net.nNodes ∧
      1 ≤ net.n2 k ∧ net.n2 k ≤ net.nNodes)
    (hadjN : ∀ i al, al ∈ net.adj i → 1 ≤ al.1 ∧ al.1 ≤ net.nNodes) :
    (sortNodes net).2 = 0 ∧
    (sortNodes net).1.sorted.Nodup ∧
    (sortNodes net).1.sorted.length = net.nNodes ∧
    (∀ n, n ∈ (sortNodes net).1.sorted ↔ 1 ≤ n ∧ n ≤ net.nNodes) := by
  have hstack := pushFold_spec (initIndegree net) net.nNodes
  have hinv0 : SortInv net.nNodes
      ⟨initIndegree net, initStack net (initIndegree net), []⟩ := by
    refine ⟨by simpa using hstack.1, ?_, ?_⟩
    · intro n hn
      rw [List.append_nil] at hn
      have := (hstack.2 n).mp hn
      exact ⟨this.1, this.2.1⟩
    · intro n h1 h2
      constructor
      · rintro (h | h)
        · exact ((hstack.2 n).mp h).2.2
        · exact absurd h (List.not_mem_nil n)
      · intro h
        exact Or.inl ((hstack.2 n).mpr ⟨h1, h2, h⟩)
  have hrun := sortLoop_complete net hends hadjN net.nNodes
    ⟨initIndegree net, initStack net (initIndegree net), []⟩ hinv0
    (by simp)
  have hsorted := hrun.2.2
  have hinv := hrun.1
  have hnds : (sortLoop net net.nNodes
      ⟨initIndegree net, initStack net (initIndegree net), []⟩).1.sorted.Nodup :=
    List.Nodup.of_append_right hinv.1
  have hsub : (sortLoop net net.nNodes
      ⟨initIndegree net, initStack net (initIndegree net), []⟩).1.sorted ⊆
      List.range' 1 net.nNodes := by
    intro n hn
    exact (mem_range_one n net.nNodes).mpr
      (hinv.2.1 n (List.mem_append.mpr (Or.inr hn)))
  have hperm := (List.subperm_of_subset hnds hsub).perm_of_length_le
    (by rw [List.length_range', hsorted])
  have herr : (sortNodes net).2 = 0 := by
    unfold sortNodes
    dsimp only
    rw [if_neg (by rw [hsorted]; omega)]
  refine ⟨herr, hnds, hsorted, ?_⟩
  intro n
  rw [show (sortNodes net).1 = (sortLoop net net.nNodes
    ⟨initIndegree net, initStack net (initIndegree net), []⟩).1 from rfl]
  rw [← mem_range_one n net.nNodes]
  exact ⟨fun h => hperm.mem_iff.mp h, fun h => hperm.mem_iff.mpr h⟩

/-- Witness for C7: the three-node directed cycle.  Both hypotheses are
discharged at the concrete network, and the sorter completes with no error
and a full ordering, exercising the cycle fallback. -/
theorem sortNodes_witness :
    (sortNodes cycle3).2 = 0 ∧ (sortNodes cycle3).1.sorted.length = 3 := by
  have h := sortNodes_complete_permutation cycle3
    (by intro k
        unfold cycle3
        dsimp only
        split_ifs <;> omega)
    (by intro i al hal
        unfold cycle3 at hal ⊢
        dsimp only at hal ⊢
        split_ifs at hal <;> simp at hal <;>
          rcases hal with h | h <;> rw [h] <;> exact ⟨by norm_num, by norm_num⟩)
  exact ⟨h.1, h.2.2.1⟩

end MSX
